import Mathlib

/-!
Verification development for the estimation-task repository.

Shallow embeddings (over `ℚ` for pixel arithmetic, `List Char` for strings):
* the permuted block randomizer `blockRandomize` from the server
  (src/unnamed/part_002 and part_003);
* the text measurement and greedy wrapping helpers `approxW` / `wrap`,
  the node sizing helpers `stepDims` / `expansionH`, the layout engine
  `computeLayout`, and the zone reconciliation pass
  `adjustLayoutForZoneMinHeights` from
  src/versions/v2-pilot-1/public/js/process-map-svg.js.
-/

namespace EstTask

/-! ### Block randomizer (src/unnamed/part_002 lines 42-90)

`Math.random()` is modelled as an explicit stream `r : ℕ → ℚ` of values in
`[0, 1)` together with a cursor `k` giving the index of the next unconsumed
value.  The module-level mutable `blockRandomize._currentBlock` is threaded
explicitly as an `Option (List Cond)` value. -/

/-- The two treatment labels (`CONDITIONS = ['detailed', 'simple']`). -/
inductive Cond where
  | detailed
  | simple
deriving DecidableEq, Repr

/-- One record of the assignment log: a (possibly absent) condition plus the
`condition_forced` flag. -/
structure Session where
  condition : Option Cond
  forced : Bool
deriving DecidableEq, Repr

/-- `existingSessions.filter(s => !s.condition_forced && s.condition).map(s => s.condition)`. -/
def assignedOf (log : List Session) : List Cond :=
  log.filterMap (fun s => if s.forced then none else s.condition)

/-- `BLOCK_SIZE = 4`. -/
def blockSize : ℕ := 4

/-- The unshuffled fresh block: `BLOCK_SIZE/2` copies of each condition, in
`CONDITIONS` order. -/
def baseBlock : List Cond := [.detailed, .detailed, .simple, .simple]

/-- `Math.floor(x * n)` as a natural index (`x` is a `Math.random()` draw). -/
def jIdx (x : ℚ) (n : ℕ) : ℕ := (⌊x * n⌋).toNat

/-- `[block[i], block[j]] = [block[j], block[i]]`. -/
def listSwap (l : List Cond) (i j : ℕ) : List Cond :=
  (l.set i (l.getD j .detailed)).set j (l.getD i .detailed)

/-- The Fisher-Yates loop `for (let i = block.length - 1; i > 0; i--)`,
consuming one random draw per iteration. -/
def fyLoop (r : ℕ → ℚ) : ℕ → List Cond → ℕ → List Cond × ℕ
  | 0, l, k => (l, k)
  | i + 1, l, k => fyLoop r i (listSwap l (i + 1) (jIdx (r k) (i + 2))) (k + 1)

/-- The balance-seeking fallback at the end of `blockRandomize`: assign to the
strictly smaller arm, random tie-break (`Math.random() < 0.5`). -/
def fallbackAssign (assigned : List Cond) (cache : Option (List Cond)) (r : ℕ → ℚ) (k : ℕ) :
    Cond × Option (List Cond) × ℕ :=
  let d := assigned.count .detailed
  let s := assigned.count .simple
  if d < s then (.detailed, cache, k)
  else if s < d then (.simple, cache, k)
  else ((if r k < 1 / 2 then Cond.detailed else Cond.simple), cache, k + 1)

/-- `blockRandomize(existingSessions)`, returning the label together with the
updated `_currentBlock` cache and random-stream cursor. -/
def blockRandomize (log : List Session) (cache : Option (List Cond)) (r : ℕ → ℚ) (k : ℕ) :
    Cond × Option (List Cond) × ℕ :=
  let assigned := assignedOf log
  let total := assigned.length
  let pos := total % blockSize
  if pos = 0 then
    let p := fyLoop r (baseBlock.length - 1) baseBlock k
    (p.1.getD 0 .detailed, some p.1, p.2)
  else
    match cache with
    | some b =>
        if b.length = blockSize ∧ b.take pos = assigned.drop (total - pos) then
          (b.getD pos .detailed, some b, k)
        else fallbackAssign assigned (some b) r k
    | none => fallbackAssign assigned none r k

/-- One non-forced `assign` call: the returned label is appended to the log
before the next call (`condition_forced: false`). -/
def simStep (r : ℕ → ℚ) (st : List Session × Option (List Cond) × ℕ) :
    List Session × Option (List Cond) × ℕ :=
  let out := blockRandomize st.1 st.2.1 r st.2.2
  (st.1 ++ [⟨some out.1, false⟩], out.2.1, out.2.2)

/-- `n` sequential non-forced calls starting from an empty log and the initial
`blockRandomize._currentBlock = null` cache, with no restart in between. -/
def simulate (r : ℕ → ℚ) : ℕ → List Session × Option (List Cond) × ℕ
  | 0 => ([], none, 0)
  | n + 1 => simStep r (simulate r n)

/-- A `Math.random()` stream: every draw lies in `[0, 1)`. -/
def validRand (r : ℕ → ℚ) : Prop := ∀ m, 0 ≤ r m ∧ r m < 1

/-- A full permuted block: length 4 with exactly 2 of each label. -/
def balanced4 (b : List Cond) : Prop :=
  b.length = 4 ∧ b.count .detailed = 2 ∧ b.count .simple = 2

/-! ### Text metrics and wrapping (process-map-svg.js lines 94-115)

JS strings are modelled as `List Char`; pixel quantities as `ℚ`. -/

/-- `approxW(str, fontSize) = str.length * fontSize * 0.57`. -/
def approxW (str : List Char) (fontSize : ℚ) : ℚ :=
  (str.length : ℚ) * fontSize * (57 / 100)

/-- `str.split(' ')` with JavaScript semantics: consecutive separators produce
empty fragments, and the empty string splits to one empty fragment. -/
def splitSp : List Char → List (List Char)
  | [] => [[]]
  | c :: rest =>
      if c = ' ' then [] :: splitSp rest
      else
        match splitSp rest with
        | [] => [[c]]
        | w :: ws => (c :: w) :: ws

/-- Joining fragments with a single space between consecutive ones
(`lines.join(' ')`). -/
def joinSp : List (List Char) → List Char
  | [] => []
  | [w] => w
  | w :: ws => w ++ ' ' :: joinSp ws

/-- Collapsing every run of consecutive spaces to a single space
(the "normalized to single internal spaces" reading of the spec). -/
def normSp : List Char → List Char
  | [] => []
  | ' ' :: rest =>
      match normSp rest with
      | ' ' :: out => ' ' :: out
      | out => ' ' :: out
  | c :: rest => c :: normSp rest

/-- The accumulation loop of `wrap`: `test = cur ? cur + ' ' + w : w`;
`if (test.length > maxChars && cur) { lines.push(cur); cur = w } else cur = test`,
with the final `if (cur) lines.push(cur)`. -/
def wrapWords (maxChars : ℤ) : List (List Char) → List Char → List (List Char)
  | [], cur => if cur = [] then [] else [cur]
  | w :: ws, cur =>
      let test := if cur = [] then w else cur ++ ' ' :: w
      if (test.length : ℤ) > maxChars ∧ cur ≠ [] then
        cur :: wrapWords maxChars ws w
      else
        wrapWords maxChars ws test

/-- `maxChars = Math.floor(maxPx / (fontSize * 0.57))`. -/
def maxCharsOf (maxPx fontSize : ℚ) : ℤ := ⌊maxPx / (fontSize * (57 / 100))⌋

/-- `wrap(str, maxPx, fontSize)`. -/
def wrap (str : List Char) (maxPx fontSize : ℚ) : List (List Char) :=
  let maxChars := maxCharsOf maxPx fontSize
  if (str.length : ℤ) ≤ maxChars then [str]
  else wrapWords maxChars (splitSp str) []

/-! ### Process data model (the fields of PROCESS_MAP consumed by the layout
engine) -/

/-- A hidden sub-action (only its description feeds the geometry). -/
structure HiddenAct where
  description : List Char
deriving DecidableEq, Repr

/-- A step of a phase; `decisionOutcome` and `errorLoop` model the truthiness
of the corresponding optional JS fields. -/
structure Step where
  id : List Char
  name : List Char
  isDecisionPoint : Bool
  decisionOutcome : Bool
  errorLoop : Bool
  hiddenActions : List HiddenAct
deriving DecidableEq, Repr

/-- A phase: its identifier and ordered steps. -/
structure Phase where
  id : List Char
  steps : List Step
deriving DecidableEq, Repr

/-- The process description consumed by `computeLayout`. -/
structure ProcessMap where
  phases : List Phase
deriving DecidableEq, Repr

/-! ### Configuration constants (the `CFG` object, geometry fields only) -/

namespace CFG

def canvasPad : ℚ := 36
def phaseGap : ℚ := 28
def phasePadX : ℚ := 22
def phasePadY : ℚ := 14
def phaseLabelH : ℚ := 34
def stepW : ℚ := 480
def stepMinH : ℚ := 56
def stepPadTop : ℚ := 12
def stepPadBottom : ℚ := 10
def stepNameLineH : ℚ := 17
def stepBadgeRowH : ℚ := 22
def stepNameBadgeGap : ℚ := 6
def stepGap : ℚ := 14
def decisionSize : ℚ := 50
def circleR : ℚ := 16
def loopOffX : ℚ := 46
def stepFontSz : ℚ := 12
def expPadTop : ℚ := 10
def expPadBottom : ℚ := 10
def expLabelH : ℚ := 16
def expLabelGap : ℚ := 6
def expActionLineH : ℚ := 15
def expActionGap : ℚ := 4
def expActionFontSz : ℚ := 11
def expErrorH : ℚ := 18

end CFG

/-- `PHASE_INNER_W = CFG.stepW + CFG.phasePadX * 2`. -/
def phaseInnerW : ℚ := CFG.stepW + CFG.phasePadX * 2

/-- `BAND_EXTRA = CFG.loopOffX + 30`. -/
def bandExtra : ℚ := CFG.loopOffX + 30

/-- `FULL_W = PHASE_INNER_W + CFG.canvasPad * 2 + BAND_EXTRA`. -/
def fullW : ℚ := phaseInnerW + CFG.canvasPad * 2 + bandExtra

/-! ### Node sizing (process-map-svg.js lines 119-146) -/

/-- The result record of `stepDims`. -/
structure Dims where
  lines : List (List Char)
  nameH : ℚ
  idW : ℚ
  h : ℚ
deriving DecidableEq, Repr

/-- `stepDims(step)`. -/
def stepDims (step : Step) : Dims :=
  let idW := approxW step.id 10 + 14
  let hasExp := step.hiddenActions ≠ [] ∨ step.errorLoop = true
  let indicatorW : ℚ := if hasExp then 40 else 0
  let nameW := CFG.stepW - idW - indicatorW - 32
  let lines := wrap step.name nameW CFG.stepFontSz
  let nameH := (lines.length : ℚ) * CFG.stepNameLineH
  let h := CFG.stepPadTop + nameH + CFG.stepNameBadgeGap + CFG.stepBadgeRowH + CFG.stepPadBottom
  { lines := lines, nameH := nameH, idW := idW, h := max h CFG.stepMinH }

/-- `expansionH(step)`. -/
def expansionH (step : Step) : ℚ :=
  if step.hiddenActions = [] ∧ step.errorLoop = false then 0
  else
    let h0 : ℚ := CFG.expPadTop
    let h1 : ℚ :=
      if step.hiddenActions ≠ [] then
        h0 + CFG.expLabelH + CFG.expLabelGap +
          (step.hiddenActions.map (fun a =>
            ((wrap a.description (CFG.stepW - 50) CFG.expActionFontSz).length : ℚ) *
              CFG.expActionLineH + CFG.expActionGap)).sum
      else h0
    let h2 : ℚ := if step.errorLoop = true then h1 + 4 + CFG.expErrorH else h1
    h2 + CFG.expPadBottom

/-! ### Layout elements (the tagged union produced by `computeLayout`) -/

/-- A layout element.  Only the geometric fields read or written by
`computeLayout`, `topY`, `bottomY` and `adjustLayoutForZoneMinHeights` are
modelled; `task` keeps its wrapped-line cache (`dims.lines`), `decision` its
label cache. -/
inductive Elem where
  | start (x y r : ℚ)
  | stop (x y r : ℚ)
  | task (stepId : List Char) (lines : List (List Char)) (x y w h expH : ℚ)
  | decision (stepId : List Char) (lblLines : List (List Char)) (x y size : ℚ)
  | band (phaseId : List Char) (x y w h : ℚ)
deriving DecidableEq, Repr

instance : Inhabited Elem := ⟨.start 0 0 0⟩

/-- `topY(e)` (process-map-svg.js lines 273-278). -/
def topY : Elem → ℚ
  | .start _ y r => y - r
  | .stop _ y r => y - r
  | .task _ _ _ y _ _ _ => y
  | .decision _ _ _ y size => y - size / 2
  | .band _ _ y _ _ => y

/-- `bottomY(e)` (process-map-svg.js lines 280-285). -/
def bottomY : Elem → ℚ
  | .start _ y r => y + r
  | .stop _ y r => y + r
  | .task _ _ _ y _ h expH => y + h + expH
  | .decision _ _ _ y size => y + size / 2
  | .band _ _ y _ _ => y

/-- The record returned by `computeLayout`. -/
structure Layout where
  elems : List Elem
  w : ℚ
  h : ℚ
  cx : ℚ
deriving DecidableEq, Repr

/-! ### Layout engine (process-map-svg.js lines 150-201) -/

/-- The loop body for one step: places a decision diamond or a task box at the
cursor and advances it. -/
def layoutStep (cx : ℚ) (expanded : List (List Char)) (acc : List Elem × ℚ) (step : Step) :
    List Elem × ℚ :=
  let elems := acc.1
  let y := acc.2
  if step.isDecisionPoint then
    let lblLines := wrap step.name (CFG.stepW * (65 / 100)) 10
    let lblH : ℚ :=
      if step.decisionOutcome then 2 * 13 + 4 else (lblLines.length : ℚ) * 13 + 4
    (elems ++ [.decision step.id lblLines cx (y + CFG.decisionSize / 2) CFG.decisionSize],
     y + CFG.decisionSize + lblH + 10)
  else
    let dims := stepDims step
    let isExpanded := step.id ∈ expanded
    let expH := if isExpanded then expansionH step else 0
    (elems ++ [.task step.id dims.lines (cx - CFG.stepW / 2) y CFG.stepW dims.h expH],
     y + dims.h + expH + CFG.stepGap)

/-- The loop body for one phase: records the band top, lays out the steps, then
closes the band and advances past the inter-phase gap. -/
def layoutPhase (cx : ℚ) (expanded : List (List Char)) (acc : List Elem × ℚ) (phase : Phase) :
    List Elem × ℚ :=
  let py0 := acc.2
  let afterHeader := (acc.1, acc.2 + CFG.phaseLabelH + CFG.phasePadY)
  let afterSteps := phase.steps.foldl (layoutStep cx expanded) afterHeader
  let y1 := afterSteps.2 + CFG.phasePadY
  (afterSteps.1 ++ [.band phase.id CFG.canvasPad py0 (phaseInnerW + bandExtra) (y1 - py0)],
   y1 + CFG.phaseGap)

/-- `computeLayout()`, as a pure function of the process description and the
expanded-steps set. -/
def computeLayout (pm : ProcessMap) (expanded : List (List Char)) : Layout :=
  let y0 := CFG.canvasPad
  let cx := CFG.canvasPad + CFG.phasePadX + CFG.stepW / 2
  let acc0 : List Elem × ℚ := ([.start cx (y0 + CFG.circleR) CFG.circleR], y0 + CFG.circleR * 2 + 18)
  let acc1 := pm.phases.foldl (layoutPhase cx expanded) acc0
  let elems := acc1.1 ++ [.stop cx (acc1.2 + CFG.circleR) CFG.circleR]
  { elems := elems, w := fullW, h := acc1.2 + CFG.circleR * 2 + CFG.canvasPad, cx := cx }

/-! ### Zone height reconciliation (process-map-svg.js lines 205-269) -/

/-- Membership of an element in a zone:
`(e.type === 'task' || e.type === 'decision') && zone.stepIds.includes(e.step.id)`. -/
def isZoneMember (zone : List (List Char)) : Elem → Bool
  | .task stepId _ _ _ _ _ _ => zone.contains stepId
  | .decision stepId _ _ _ _ => zone.contains stepId
  | _ => false

/-- The zone's member elements, in layout order. -/
def membersOf (ly : Layout) (zone : List (List Char)) : List Elem :=
  ly.elems.filter (isZoneMember zone)

/-- `stepElems.sort((a, b) => topY(a) - topY(b))`: a stable sort by `topY`. -/
def sortByTop (l : List Elem) : List Elem :=
  l.insertionSort (fun a b => topY a ≤ topY b)

/-- `boundaries.sort((a, b) => a.y - b.y)`: a stable sort of `(y, cumulShift)`
pairs by `y`. -/
def sortByY (l : List (ℚ × ℚ)) : List (ℚ × ℚ) :=
  l.insertionSort (fun a b => a.1 ≤ b.1)

/-- The maximum applicable cumulative shift at vertical position `t`:
`for b of boundaries: if (t > b.y) shift = Math.max(shift, b.cumulShift)`. -/
def shiftOf (bs : List (ℚ × ℚ)) (t : ℚ) : ℚ :=
  bs.foldl (fun acc b => if t > b.1 then max acc b.2 else acc) 0

/-- The per-element mutation of the boundary-shift loop: bands shift their two
edges independently, every other element shifts rigidly by the maximum
applicable boundary shift. -/
def shiftElem (bs : List (ℚ × ℚ)) : Elem → Elem
  | .band p x y w h =>
      let topShift := shiftOf bs y
      let botShift := shiftOf bs (y + h)
      .band p x (y + topShift) w (h + (botShift - topShift))
  | e =>
      let s := shiftOf bs (topY e)
      if s > 0 then
        match e with
        | .start x y r => .start x (y + s) r
        | .stop x y r => .stop x (y + s) r
        | .task stepId lines x y w h expH => .task stepId lines x (y + s) w h expH
        | .decision stepId lbl x y size => .decision stepId lbl x (y + s) size
        | .band p x y w h => .band p x y w h
      else e

/-- The sorted member list of a zone. -/
def sortedMembersOf (ly : Layout) (zone : List (List Char)) : List Elem :=
  sortByTop (membersOf ly zone)

/-- The zone's current span, measured on the sorted member list
(`yMax - yMin`); meaningful when the member list is nonempty. -/
def spanOf (ly : Layout) (zone : List (List Char)) : ℚ :=
  let s := sortedMembersOf ly zone
  bottomY (s.getLastD default) - topY (s.headD default)

/-- The boundary list built for one adjusted zone: the bottoms of all but the
last sorted member carry the cumulative within-zone shifts, the zone's bottom
edge carries the full delta, and the list is then sorted by `y`. -/
def boundariesOf (sorted : List Elem) (delta : ℚ) : List (ℚ × ℚ) :=
  let n := sorted.length
  sortByY ((
    (List.range (n - 1)).map (fun i =>
      (bottomY (sorted.getD i default), ((i : ℚ) + 1) * (delta / ((n : ℚ) - 1)))))
    ++ [(bottomY (sorted.getLastD default), delta)])

/-- One iteration of the zone loop of `adjustLayoutForZoneMinHeights`. -/
def applyZone (ly : Layout) (zm : List (List Char) × ℚ) : Layout :=
  let zone := zm.1
  let reqMin := zm.2
  if reqMin ≤ 0 then ly
  else
    let stepElems := membersOf ly zone
    if stepElems = [] then ly
    else
      let sorted := sortByTop stepElems
      let currentH := bottomY (sorted.getLastD default) - topY (sorted.headD default)
      if reqMin ≤ currentH then ly
      else
        let delta := reqMin - currentH
        let bs := boundariesOf sorted delta
        { elems := ly.elems.map (shiftElem bs), w := ly.w, h := ly.h + delta, cx := ly.cx }

/-- `adjustLayoutForZoneMinHeights(layout, zones, minHeights)`: the zones are
paired with their minimum heights (a missing minimum makes the zone skip, like
the `!reqMin` guard) and applied in order on the already-shifted layout. -/
def adjustLayoutForZoneMinHeights (ly : Layout) (zs : List (List (List Char) × ℚ)) : Layout :=
  zs.foldl applyZone ly

/-- Whether a zone actually gets adjusted (reaches the `delta` branch). -/
def zoneApplies (ly : Layout) (zm : List (List Char) × ℚ) : Prop :=
  0 < zm.2 ∧ membersOf ly zm.1 ≠ [] ∧ spanOf ly zm.1 < zm.2

instance (ly : Layout) (zm : List (List Char) × ℚ) : Decidable (zoneApplies ly zm) := by
  unfold zoneApplies; infer_instance

/-- The positive deltas of the zones that get adjusted, each measured on the
layout as already shifted by the preceding zones. -/
def appliedDeltas : Layout → List (List (List Char) × ℚ) → List ℚ
  | _, [] => []
  | ly, zm :: rest =>
      (if zoneApplies ly zm then [zm.2 - spanOf ly zm.1] else []) ++
        appliedDeltas (applyZone ly zm) rest

/-- The cache situations routed to the balance-seeking fallback: missing cache,
wrong length, or prefix inconsistent with the most recent non-forced
assignments. -/
def cacheInvalid (log : List Session) (cache : Option (List Cond)) : Prop :=
  match cache with
  | none => True
  | some b =>
      ¬(b.length = blockSize ∧
        b.take ((assignedOf log).length % blockSize) =
          (assignedOf log).drop
            ((assignedOf log).length - (assignedOf log).length % blockSize))

/-- A concrete `Math.random()` stream: the first block is shuffled to
`[simple, simple, detailed, detailed]` and the second to
`[detailed, detailed, simple, simple]`. -/
def rC4 : ℕ → ℚ := fun n =>
  if n = 0 then 0 else if n = 1 then 1 / 2 else if n = 2 then 1 / 2 else 3 / 4

/-! ### Predicates about layouts used to state the reconciliation claims -/

/-- Every element's top edge lies at or above its bottom edge (true of all
layouts the engine produces: radii, heights and expansion heights are
nonnegative). -/
def wfLayout (ly : Layout) : Prop := ∀ e ∈ ly.elems, topY e ≤ bottomY e

/-- The skip conditions of the zone loop: no positive minimum, no member
elements, or the current span already meets the minimum. -/
def zoneSat (ly : Layout) (zm : List (List Char) × ℚ) : Prop :=
  zm.2 ≤ 0 ∨ membersOf ly zm.1 = [] ∨ zm.2 ≤ spanOf ly zm.1

/-- A zone whose member elements appear in the element list already ordered by
top edge and strictly separated (each member's bottom strictly above the next
member's top), and which is either already satisfied or has at least two
members. -/
def zoneGood (ly : Layout) (zm : List (List Char) × ℚ) : Prop :=
  (membersOf ly zm.1).Chain' (fun a b => topY a ≤ topY b) ∧
  (membersOf ly zm.1).Chain' (fun a b => bottomY a < topY b) ∧
  (zoneSat ly zm ∨ 2 ≤ (membersOf ly zm.1).length)

/-- The frame relation of the reconciliation pass: same constructor and
identical geometry except for the vertical position (and, for bands only, the
height). -/
def frameMatch : Elem → Elem → Prop
  | .start x _ r, .start x2 _ r2 => x = x2 ∧ r = r2
  | .stop x _ r, .stop x2 _ r2 => x = x2 ∧ r = r2
  | .task sid lines x _ w h expH, .task sid2 lines2 x2 _ w2 h2 expH2 =>
      sid = sid2 ∧ lines = lines2 ∧ x = x2 ∧ w = w2 ∧ h = h2 ∧ expH = expH2
  | .decision sid lbl x _ size, .decision sid2 lbl2 x2 _ size2 =>
      sid = sid2 ∧ lbl = lbl2 ∧ x = x2 ∧ size = size2
  | .band p x _ w _, .band p2 x2 _ w2 _ => p = p2 ∧ x = x2 ∧ w = w2
  | _, _ => False

/-- The full frame/order contract of C10 between a layout and its
reconciliation: pointwise `frameMatch`, unchanged width and center, and
preservation of the strict relative vertical order of any two elements. -/
def frameRel (ly ly2 : Layout) : Prop :=
  List.Forall₂ frameMatch ly.elems ly2.elems ∧ ly2.w = ly.w ∧ ly2.cx = ly.cx ∧
  ∀ i j, i < ly.elems.length → j < ly.elems.length →
    topY (ly.elems.getD i default) < topY (ly.elems.getD j default) →
    topY (ly2.elems.getD i default) < topY (ly2.elems.getD j default)

/-! ### Concrete inputs used by counterexamples and witnesses -/

/-- A plain step (no hidden actions, no error loop, not a decision) whose name
is two 32-character words. -/
def stepTwoWords : Step :=
  { id := ['x'], name := List.replicate 32 'a' ++ ' ' :: List.replicate 32 'a',
    isDecisionPoint := false, decisionOutcome := false, errorLoop := false,
    hiddenActions := [] }

/-- The same step with a longer name that is a single 66-character word. -/
def stepOneWord : Step :=
  { id := ['x'], name := List.replicate 66 'a',
    isDecisionPoint := false, decisionOutcome := false, errorLoop := false,
    hiddenActions := [] }

/-- A short-named step. -/
def stepShort : Step :=
  { id := ['x'], name := ['g', 'o'],
    isDecisionPoint := false, decisionOutcome := false, errorLoop := false,
    hiddenActions := [] }

/-- A small process description: two phases with one step each. -/
def pmEx : ProcessMap :=
  { phases := [{ id := ['p', '1'], steps := [stepShort] },
               { id := ['p', '2'], steps := [stepOneWord] }] }

/-- A one-task layout whose single step belongs to a one-member zone. -/
def lyOneTask : Layout :=
  { elems := [.task ['s'] [] 0 0 480 56 0], w := 672, h := 100, cx := 298 }

/-- A zone list asking the single-step zone to span at least 100 pixels. -/
def zsOneTask : List (List (List Char) × ℚ) := [([['s']], 100)]

/-- A three-task layout (tops 0, 70, 140, heights 56). -/
def lyThreeTasks : Layout :=
  { elems := [.task ['a'] [] 0 0 480 56 0, .task ['b'] [] 0 70 480 56 0,
              .task ['c'] [] 0 140 480 56 0],
    w := 672, h := 300, cx := 298 }

/-- A zone over the first two tasks of `lyThreeTasks` asking for 200 pixels. -/
def zsTwoOfThree : List (List (List Char) × ℚ) := [([['a'], ['b']], 200)]

/-! ## Lemmas about the randomizer -/

attribute [local semireducible] Rat.mul Rat.add Rat.sub Rat.inv

lemma assignedOf_append (l₁ l₂ : List Session) :
    assignedOf (l₁ ++ l₂) = assignedOf l₁ ++ assignedOf l₂ := by
  simp [assignedOf]

lemma assignedOf_snoc (l : List Session) (c : Cond) :
    assignedOf (l ++ [⟨some c, false⟩]) = assignedOf l ++ [c] := by
  simp [assignedOf]

lemma jIdx_lt {x : ℚ} {n : ℕ} (h0 : 0 ≤ x) (h1 : x < 1) (hn : 0 < n) : jIdx x n < n := by
  have hfl : (0 : ℤ) ≤ ⌊x * n⌋ := Int.floor_nonneg.2 (by positivity)
  have hlt : ⌊x * (n : ℚ)⌋ < (n : ℤ) := by
    apply Int.floor_lt.2
    have : x * (n : ℚ) < 1 * (n : ℚ) := by
      apply mul_lt_mul_of_pos_right h1
      exact_mod_cast hn
    simpa using this
  unfold jIdx
  exact (Int.toNat_lt hfl).2 (by exact_mod_cast hlt)

lemma count_set_elem (l : List Cond) (k : ℕ) (x c : Cond) (hk : k < l.length) :
    (l.set k x).count c + (if l.get ⟨k, hk⟩ = c then 1 else 0) =
      l.count c + (if x = c then 1 else 0) := by
  induction l generalizing k with
  | nil => simp at hk
  | cons a t ih =>
      cases k with
      | zero =>
          simp only [List.set, List.get, List.count_cons]
          by_cases hac : a = c <;> by_cases hxc : x = c <;>
            simp [hac, hxc, beq_iff_eq] <;> omega
      | succ k =>
          have hk' : k < t.length := by simpa using hk
          have h := ih k hk'
          have hget : (a :: t).get ⟨k + 1, hk⟩ = t.get ⟨k, hk'⟩ := rfl
          rw [hget]
          simp only [List.set, List.count_cons]
          simp only [List.get_eq_getElem] at h
          by_cases hac : a = c <;> simp [hac, beq_iff_eq] <;> omega

lemma getD_eq_get (l : List Cond) (k : ℕ) (hk : k < l.length) :
    l.getD k .detailed = l.get ⟨k, hk⟩ := by
  simp [List.getD_eq_getElem?_getD, List.getElem?_eq_getElem hk]

lemma count_listSwap (l : List Cond) (i j : ℕ) (c : Cond)
    (hi : i < l.length) (hj : j < l.length) :
    (listSwap l i j).count c = l.count c := by
  have hswap : listSwap l i j = (l.set i (l.get ⟨j, hj⟩)).set j (l.get ⟨i, hi⟩) := by
    rw [listSwap, getD_eq_get l j hj, getD_eq_get l i hi]
  have hj₁ : j < (l.set i (l.get ⟨j, hj⟩)).length := by simpa using hj
  have h₁ := count_set_elem l i (l.get ⟨j, hj⟩) c hi
  have h₂ := count_set_elem (l.set i (l.get ⟨j, hj⟩)) j (l.get ⟨i, hi⟩) c hj₁
  rw [hswap]
  by_cases hij : i = j
  · subst hij
    have hset : (l.set i (l.get ⟨i, hi⟩)).get ⟨i, hj₁⟩ = l.get ⟨i, hi⟩ := by
      simp only [List.get_eq_getElem]
      exact List.getElem_set_self (by simpa using hi)
    rw [hset] at h₂
    omega
  · have hset : (l.set i (l.get ⟨j, hj⟩)).get ⟨j, hj₁⟩ = l.get ⟨j, hj⟩ := by
      simp only [List.get_eq_getElem]
      exact List.getElem_set_ne hij (by simpa using hj)
    rw [hset] at h₂
    omega

lemma length_listSwap (l : List Cond) (i j : ℕ) : (listSwap l i j).length = l.length := by
  simp [listSwap]

lemma fyLoop_spec (r : ℕ → ℚ) (hr : validRand r) :
    ∀ (i : ℕ) (l : List Cond) (k : ℕ), i < l.length →
      (fyLoop r i l k).1.length = l.length ∧
        ∀ c, (fyLoop r i l k).1.count c = l.count c := by
  intro i
  induction i with
  | zero => intro l k _; exact ⟨rfl, fun _ => rfl⟩
  | succ i ih =>
      intro l k hlt
      have hj : jIdx (r k) (i + 2) < l.length := by
        have := jIdx_lt (hr k).1 (hr k).2 (n := i + 2) (by omega)
        omega
      have hlen := length_listSwap l (i + 1) (jIdx (r k) (i + 2))
      have hrec := ih (listSwap l (i + 1) (jIdx (r k) (i + 2))) (k + 1) (by omega)
      refine ⟨?_, ?_⟩
      · rw [fyLoop]; rw [hrec.1, hlen]
      · intro c
        rw [fyLoop]; rw [hrec.2 c, count_listSwap l _ _ c hlt hj]

lemma freshBlock_balanced (r : ℕ → ℚ) (hr : validRand r) (k : ℕ) :
    balanced4 (fyLoop r 3 baseBlock k).1 := by
  have h := fyLoop_spec r hr 3 baseBlock k (by decide)
  refine ⟨?_, ?_, ?_⟩
  · rw [h.1]; rfl
  · rw [h.2 .detailed]; rfl
  · rw [h.2 .simple]; rfl

lemma length_flatten4 (bs : List (List Cond)) (hb : ∀ b ∈ bs, b.length = 4) :
    bs.flatten.length = 4 * bs.length := by
  induction bs with
  | nil => rfl
  | cons b t ih =>
      have hbt : b.length = 4 := hb b (by simp)
      have ht : ∀ x ∈ t, x.length = 4 := fun x hx => hb x (by simp [hx])
      simp [ih ht, hbt]; ring

lemma blockRandomize_pos0 (log : List Session) (cache : Option (List Cond))
    (r : ℕ → ℚ) (k : ℕ) (h : (assignedOf log).length % blockSize = 0) :
    blockRandomize log cache r k =
      ((fyLoop r 3 baseBlock k).1.getD 0 .detailed, some (fyLoop r 3 baseBlock k).1,
        (fyLoop r 3 baseBlock k).2) := by
  unfold blockRandomize
  rw [if_pos h]
  rfl

lemma blockRandomize_consistent (log : List Session) (B : List Cond)
    (r : ℕ → ℚ) (k : ℕ)
    (hpos : (assignedOf log).length % blockSize ≠ 0)
    (hlen : B.length = blockSize)
    (hcons : B.take ((assignedOf log).length % blockSize) =
      (assignedOf log).drop
        ((assignedOf log).length - (assignedOf log).length % blockSize)) :
    blockRandomize log (some B) r k =
      (B.getD ((assignedOf log).length % blockSize) .detailed, some B, k) := by
  unfold blockRandomize
  rw [if_neg hpos]
  exact if_pos ⟨hlen, hcons⟩

lemma blockRandomize_invalid (log : List Session) (cache : Option (List Cond))
    (r : ℕ → ℚ) (k : ℕ)
    (hpos : (assignedOf log).length % blockSize ≠ 0)
    (hbad : cacheInvalid log cache) :
    blockRandomize log cache r k = fallbackAssign (assignedOf log) cache r k := by
  unfold blockRandomize
  rw [if_neg hpos]
  cases cache with
  | none => rfl
  | some b =>
      unfold cacheInvalid at hbad
      exact if_neg hbad

/-- The inductive invariant of an uninterrupted run: the non-forced log is a
sequence of completed balanced blocks followed by a prefix of the cached
current block. -/
def SimInv (r : ℕ → ℚ) (n : ℕ) : Prop :=
  ∃ (bs : List (List Cond)) (B : List Cond),
    (∀ b ∈ bs, balanced4 b) ∧ balanced4 B ∧ bs.length = n / 4 ∧
    assignedOf (simulate r n).1 = bs.flatten ++ B.take (n % 4) ∧
    (n % 4 ≠ 0 → (simulate r n).2.1 = some B)

lemma sim_inv (r : ℕ → ℚ) (hr : validRand r) : ∀ n, SimInv r n := by
  intro n
  induction n with
  | zero =>
      refine ⟨([] : List (List Cond)), baseBlock, by simp, ?_, by simp,
        by simp [simulate, assignedOf], by simp⟩
      refine ⟨rfl, rfl, rfl⟩
  | succ n ih =>
      obtain ⟨bs, B, hbs, hB, hlen, hlog, hcache⟩ := ih
      have hflat : bs.flatten.length = 4 * bs.length :=
        length_flatten4 bs (fun b hb => (hbs b hb).1)
      have hpos4 : n % 4 < 4 := Nat.mod_lt _ (by omega)
      have htk : (B.take (n % 4)).length = n % 4 := by
        rw [List.length_take, hB.1]; omega
      have htotal : (assignedOf (simulate r n).1).length = n := by
        rw [hlog, List.length_append, hflat, htk, hlen]; omega
      by_cases hmod : n % 4 = 0
      · -- a fresh block is generated and its first element returned
        have hbr := blockRandomize_pos0 (simulate r n).1 (simulate r n).2.1 r
          (simulate r n).2.2 (by rw [htotal]; simpa [blockSize] using hmod)
        set B' := (fyLoop r 3 baseBlock (simulate r n).2.2).1 with hB'
        have hbal : balanced4 B' := freshBlock_balanced r hr _
        obtain ⟨b0, rest, hcons⟩ : ∃ b0 rest, B' = b0 :: rest := by
          cases hcons : B' with
          | nil => rw [hcons] at hbal; simp [balanced4] at hbal
          | cons b0 rest => exact ⟨b0, rest, rfl⟩
        refine ⟨bs, B', hbs, hbal, ?_, ?_, ?_⟩
        · omega
        · show assignedOf (simStep r (simulate r n)).1 = _
          unfold simStep
          rw [assignedOf_snoc, hbr]
          rw [hlog, hmod]
          have h1 : (n + 1) % 4 = 1 := by omega
          rw [h1, hcons]
          simp
        · intro _
          show (simStep r (simulate r n)).2.1 = some B'
          unfold simStep
          rw [hbr]
      · -- mid-block: the cached block is consistent and its next element returned
        have hc : (simulate r n).2.1 = some B := hcache hmod
        have hmodeq : (assignedOf (simulate r n).1).length % blockSize = n % 4 := by
          rw [htotal]; rfl
        have hconsis : B.take ((assignedOf (simulate r n).1).length % blockSize) =
            (assignedOf (simulate r n).1).drop
              ((assignedOf (simulate r n).1).length -
                (assignedOf (simulate r n).1).length % blockSize) := by
          rw [hmodeq, htotal, hlog]
          have hdrop : n - n % 4 = bs.flatten.length := by rw [hflat, hlen]; omega
          rw [hdrop, List.drop_left]
        have hbr := blockRandomize_consistent (simulate r n).1 B r (simulate r n).2.2
          (by rw [hmodeq]; exact hmod) hB.1 hconsis
        rw [hmodeq] at hbr
        have hgetD : B.getD (n % 4) .detailed = B.get ⟨n % 4, by rw [hB.1]; omega⟩ := by
          simp [List.getD_eq_getElem?_getD, List.getElem?_eq_getElem (by rw [hB.1]; omega : n % 4 < B.length)]
        have htake : B.take (n % 4) ++ [B.getD (n % 4) .detailed] = B.take (n % 4 + 1) := by
          rw [List.take_succ]
          have : B[n % 4]? = some (B.get ⟨n % 4, by rw [hB.1]; omega⟩) :=
            List.getElem?_eq_getElem (by rw [hB.1]; omega)
          rw [this, hgetD]
          rfl
        have hlog' : assignedOf (simStep r (simulate r n)).1 =
            bs.flatten ++ B.take (n % 4 + 1) := by
          unfold simStep
          rw [hc, hbr, assignedOf_snoc, hlog, List.append_assoc, htake]
        have hcache' : (simStep r (simulate r n)).2.1 = some B := by
          unfold simStep; rw [hc, hbr]
        by_cases hm3 : n % 4 = 3
        · -- the block completes
          refine ⟨bs ++ [B], B, ?_, hB, ?_, ?_, ?_⟩
          · intro b hb
            rcases List.mem_append.1 hb with h | h
            · exact hbs b h
            · simp at h; subst h; exact hB
          · simp; omega
          · show assignedOf (simStep r (simulate r n)).1 = _
            rw [hlog', hm3]
            have : B.take 4 = B := by rw [← hB.1, List.take_length]
            have h0 : (n + 1) % 4 = 0 := by omega
            rw [h0, this]
            simp
          · intro h0; exfalso; omega
        · -- still mid-block
          refine ⟨bs, B, hbs, hB, ?_, ?_, ?_⟩
          · omega
          · show assignedOf (simStep r (simulate r n)).1 = _
            rw [hlog']
            have : (n + 1) % 4 = n % 4 + 1 := by omega
            rw [this]
          · intro _
            show (simStep r (simulate r n)).2.1 = some B
            exact hcache'

lemma flatten_window (bs : List (List Cond)) (tail : List Cond)
    (hb : ∀ b ∈ bs, b.length = 4) :
    ∀ kk, kk < bs.length →
      ((bs.flatten ++ tail).drop (4 * kk)).take 4 = bs.getD kk [] := by
  induction bs generalizing tail with
  | nil => intro kk h; simp at h
  | cons b t ih =>
      intro kk hkk
      cases kk with
      | zero =>
          have hbl : b.length = 4 := hb b (by simp)
          simp only [List.flatten_cons, Nat.mul_zero, List.drop_zero, List.getD_cons_zero]
          rw [List.append_assoc, List.take_left' hbl]
      | succ kk =>
          have hbl : b.length = 4 := hb b (by simp)
          have ht : ∀ x ∈ t, x.length = 4 := fun x hx => hb x (by simp [hx])
          have hkk' : kk < t.length := by simpa using hkk
          simp only [List.flatten_cons, List.getD_cons_succ]
          rw [List.append_assoc]
          have hdrop : (b ++ (t.flatten ++ tail)).drop (4 * (kk + 1)) =
              (t.flatten ++ tail).drop (4 * kk) := by
            have : 4 * (kk + 1) = b.length + 4 * kk := by omega
            rw [this, List.drop_append]
          rw [hdrop, ih tail ht kk hkk']

/-- Both labels appear exactly twice in every boundary-aligned complete block
of a fresh uninterrupted run. -/
lemma aligned_window_balanced (r : ℕ → ℚ) (hr : validRand r) (n kk : ℕ)
    (h : 4 * (kk + 1) ≤ n) :
    (((assignedOf (simulate r n).1).drop (4 * kk)).take 4).count Cond.detailed = 2 ∧
      (((assignedOf (simulate r n).1).drop (4 * kk)).take 4).count Cond.simple = 2 := by
  obtain ⟨bs, B, hbs, _, hlen, hlog, -⟩ := sim_inv r hr n
  have hkk : kk < bs.length := by rw [hlen]; omega
  rw [hlog, flatten_window bs _ (fun b hb => (hbs b hb).1) kk hkk]
  have hmem : bs.getD kk [] ∈ bs := by
    have : bs.getD kk [] = bs.get ⟨kk, hkk⟩ := by
      simp [List.getD_eq_getElem?_getD, List.getElem?_eq_getElem hkk]
    rw [this]
    exact List.get_mem bs kk hkk
  exact ⟨(hbs _ hmem).2.1, (hbs _ hmem).2.2⟩

/-- C2: in an uninterrupted sequence of non-forced randomizer calls (each
returned label appended to the log before the next call, the in-memory block
cache intact throughout), every complete block of 4 consecutive non-forced
assignments aligned on a block boundary contains exactly 2 `detailed` and
exactly 2 `simple` labels. -/
theorem c2_block_boundary_balance (r : ℕ → ℚ) (hr : validRand r) (n kk : ℕ)
    (h : 4 * (kk + 1) ≤ n) :
    (((assignedOf (simulate r n).1).drop (4 * kk)).take 4).count Cond.detailed = 2 ∧
      (((assignedOf (simulate r n).1).drop (4 * kk)).take 4).count Cond.simple = 2 :=
  aligned_window_balanced r hr n kk h

/-- Witness for C2 at a concrete run of 8 calls with the constant-zero
random stream, checking the second aligned block. -/
theorem c2_block_boundary_balance_witness :
    (((assignedOf (simulate (fun _ => (0 : ℚ)) 8).1).drop (4 * 1)).take 4).count
        Cond.detailed = 2 ∧
      (((assignedOf (simulate (fun _ => (0 : ℚ)) 8).1).drop (4 * 1)).take 4).count
        Cond.simple = 2 :=
  c2_block_boundary_balance (fun _ => (0 : ℚ))
    (fun _ => ⟨le_refl 0, by norm_num⟩) 8 1 (by norm_num)

/-- C4 counterexample: with the stream `rC4` (whose draws all lie in `[0,1)`),
8 sequential non-forced calls produce the non-forced label sequence
`[simple, simple, detailed, detailed, detailed, detailed, simple, simple]`;
the contiguous window starting at offset 2 — which straddles the block
boundary — contains 4 `detailed` labels, not 2. -/
theorem c4_straddling_window_counterexample :
    validRand rC4 ∧
      (((assignedOf (simulate rC4 8).1).drop 2).take 4).count Cond.detailed = 4 := by
  constructor
  · intro m
    unfold rC4
    split_ifs <;> norm_num
  · decide

/-- C4 amended: the window-of-4 balance guarantee holds for the windows whose
start offset is a multiple of the block size (block-aligned windows); windows
straddling a block boundary can be imbalanced. -/
theorem c4_aligned_window_balance (r : ℕ → ℚ) (hr : validRand r) (n t : ℕ)
    (ht : t % 4 = 0) (h : t + 4 ≤ n) :
    (((assignedOf (simulate r n).1).drop t).take 4).count Cond.detailed = 2 ∧
      (((assignedOf (simulate r n).1).drop t).take 4).count Cond.simple = 2 := by
  obtain ⟨kk, hkk⟩ : ∃ kk, t = 4 * kk := ⟨t / 4, by omega⟩
  subst hkk
  exact aligned_window_balanced r hr n kk (by omega)

/-- Witness for the amended C4 at a concrete run of 12 calls with the
constant-one-half random stream, checking the window starting at offset 8. -/
theorem c4_aligned_window_balance_witness :
    (((assignedOf (simulate (fun _ => (1 / 2 : ℚ)) 12).1).drop 8).take 4).count
        Cond.detailed = 2 ∧
      (((assignedOf (simulate (fun _ => (1 / 2 : ℚ)) 12).1).drop 8).take 4).count
        Cond.simple = 2 :=
  c4_aligned_window_balance (fun _ => (1 / 2 : ℚ))
    (fun _ => ⟨by norm_num, by norm_num⟩) 12 8 (by norm_num) (by norm_num)

/-- C9: whenever the block cache is missing, has the wrong length, or is
inconsistent with the most recent non-forced assignments, the mid-block call
never raises (the embedding is a total function) and falls back to counting
each label among non-forced assignments only: it returns the label with
strictly fewer occurrences, and only when the counts are tied does the result
depend on the random draw — with both labels attainable. -/
theorem c9_fallback_balance (log : List Session) (cache : Option (List Cond))
    (hpos : (assignedOf log).length % blockSize ≠ 0)
    (hbad : cacheInvalid log cache) :
    ((assignedOf log).count Cond.detailed < (assignedOf log).count Cond.simple →
      ∀ r k, (blockRandomize log cache r k).1 = Cond.detailed) ∧
    ((assignedOf log).count Cond.simple < (assignedOf log).count Cond.detailed →
      ∀ r k, (blockRandomize log cache r k).1 = Cond.simple) ∧
    ((assignedOf log).count Cond.detailed = (assignedOf log).count Cond.simple →
      (∀ r k, (blockRandomize log cache r k).1 = Cond.detailed ∨
        (blockRandomize log cache r k).1 = Cond.simple) ∧
      (∃ r k, (blockRandomize log cache r k).1 = Cond.detailed) ∧
      (∃ r k, (blockRandomize log cache r k).1 = Cond.simple)) := by
  refine ⟨?_, ?_, ?_⟩
  · intro hds r k
    rw [blockRandomize_invalid log cache r k hpos hbad]
    unfold fallbackAssign
    simp only [if_pos hds]
  · intro hsd r k
    rw [blockRandomize_invalid log cache r k hpos hbad]
    unfold fallbackAssign
    rw [if_neg (by omega), if_pos hsd]
  · intro heq
    refine ⟨?_, ?_, ?_⟩
    · intro r k
      rw [blockRandomize_invalid log cache r k hpos hbad]
      unfold fallbackAssign
      rw [if_neg (by omega), if_neg (by omega)]
      by_cases hco : r k < 1 / 2
      · exact Or.inl (if_pos hco)
      · exact Or.inr (if_neg hco)
    · refine ⟨fun _ => 0, 0, ?_⟩
      rw [blockRandomize_invalid log cache _ 0 hpos hbad]
      unfold fallbackAssign
      rw [if_neg (by omega), if_neg (by omega)]
      norm_num
    · refine ⟨fun _ => 1, 0, ?_⟩
      rw [blockRandomize_invalid log cache _ 0 hpos hbad]
      unfold fallbackAssign
      rw [if_neg (by omega), if_neg (by omega)]
      norm_num

/-- Witness for C9: a log with one non-forced `detailed` assignment and a
missing cache makes the fallback return `simple`. -/
theorem c9_fallback_balance_witness :
    (blockRandomize [⟨some Cond.detailed, false⟩] none (fun _ => (0 : ℚ)) 0).1 =
      Cond.simple :=
  (c9_fallback_balance [⟨some Cond.detailed, false⟩] none (by decide)
    (by constructor)).2.1 (by decide) (fun _ => (0 : ℚ)) 0

/-! ## Lemmas about text wrapping -/

lemma splitSp_nil : splitSp [] = [[]] := rfl

lemma splitSp_sp (rest : List Char) : splitSp (' ' :: rest) = [] :: splitSp rest := by
  simp [splitSp]

lemma splitSp_ne_nil (s : List Char) : splitSp s ≠ [] := by
  induction s with
  | nil => simp [splitSp]
  | cons c rest ih =>
      by_cases hc : c = ' '
      · subst hc; rw [splitSp_sp]; simp
      · rw [splitSp, if_neg hc]
        rcases hsp : splitSp rest with _ | ⟨w0, ws⟩
        · simp
        · simp

lemma splitSp_cons_nsp (c : Char) (rest : List Char) (hc : ¬c = ' ') :
    splitSp (c :: rest) =
      (c :: (splitSp rest).headD []) :: (splitSp rest).tail := by
  rw [splitSp, if_neg hc]
  rcases hsp : splitSp rest with _ | ⟨w0, ws⟩
  · exact absurd hsp (splitSp_ne_nil rest)
  · rfl

lemma splitSp_no_space (s : List Char) : ∀ w ∈ splitSp s, ' ' ∉ w := by
  induction s with
  | nil =>
      intro w hw
      rw [splitSp_nil] at hw
      simp at hw
      subst hw
      simp
  | cons c rest ih =>
      intro w hw
      by_cases hc : c = ' '
      · subst hc
        rw [splitSp_sp] at hw
        rcases List.mem_cons.1 hw with h | h
        · subst h; simp
        · exact ih w h
      · rw [splitSp_cons_nsp c rest hc] at hw
        rcases List.mem_cons.1 hw with h | h
        · subst h
          have h0 : ' ' ∉ (splitSp rest).headD [] := by
            rcases hsp : splitSp rest with _ | ⟨w0, ws⟩
            · exact absurd hsp (splitSp_ne_nil rest)
            · exact ih w0 (by rw [hsp]; simp)
          intro hmem
          rcases List.mem_cons.1 hmem with h1 | h1
          · exact hc h1.symm
          · exact h0 h1
        · refine ih w ?_
          rcases hsp : splitSp rest with _ | ⟨w0, ws⟩
          · exact absurd hsp (splitSp_ne_nil rest)
          · rw [hsp] at h
            simp at h
            exact List.mem_cons_of_mem w0 h

lemma splitSp_word (w : List Char) (hw : ' ' ∉ w) : splitSp w = [w] := by
  induction w with
  | nil => rfl
  | cons c t ih =>
      have hc : ¬c = ' ' := fun h => hw (by simp [h])
      have ht : ' ' ∉ t := fun h => hw (by simp [h])
      rw [splitSp_cons_nsp c t hc, ih ht]
      rfl

lemma splitSp_word_cons (w t : List Char) (hw : ' ' ∉ w) :
    splitSp (w ++ ' ' :: t) = w :: splitSp t := by
  induction w with
  | nil => simpa using splitSp_sp t
  | cons c u ih =>
      have hc : ¬c = ' ' := fun h => hw (by simp [h])
      have hu : ' ' ∉ u := fun h => hw (by simp [h])
      rw [List.cons_append, splitSp_cons_nsp c _ hc, ih hu]
      rfl

lemma splitSp_joinSp (ws : List (List Char)) (h : ∀ w ∈ ws, ' ' ∉ w) (hne : ws ≠ []) :
    splitSp (joinSp ws) = ws := by
  induction ws with
  | nil => exact absurd rfl hne
  | cons w rest ih =>
      cases rest with
      | nil => exact splitSp_word w (h w (by simp))
      | cons w1 rest1 =>
          have hj : joinSp (w :: w1 :: rest1) = w ++ ' ' :: joinSp (w1 :: rest1) := rfl
          rw [hj, splitSp_word_cons w _ (h w (by simp)),
            ih (fun x hx => h x (by simp [hx])) (by simp)]

lemma joinSp_cons (w : List Char) (ws : List (List Char)) (h : ws ≠ []) :
    joinSp (w :: ws) = w ++ ' ' :: joinSp ws := by
  cases ws with
  | nil => exact absurd rfl h
  | cons a t => rfl

lemma wrapWords_nil (mc : ℤ) (cur : List Char) :
    wrapWords mc [] cur = if cur = [] then [] else [cur] := rfl

lemma wrapWords_cons_nilcur (mc : ℤ) (w : List Char) (ws : List (List Char)) :
    wrapWords mc (w :: ws) [] = wrapWords mc ws w := by
  rw [wrapWords]
  simp

lemma wrapWords_cons_push (mc : ℤ) (w : List Char) (ws : List (List Char))
    (cur : List Char) (hcur : cur ≠ []) (hgt : ((cur ++ ' ' :: w).length : ℤ) > mc) :
    wrapWords mc (w :: ws) cur = cur :: wrapWords mc ws w := by
  rw [wrapWords]
  rw [if_neg hcur, if_pos ⟨hgt, hcur⟩]

lemma wrapWords_cons_fit (mc : ℤ) (w : List Char) (ws : List (List Char))
    (cur : List Char) (hcur : cur ≠ []) (hle : ¬((cur ++ ' ' :: w).length : ℤ) > mc) :
    wrapWords mc (w :: ws) cur = wrapWords mc ws (cur ++ ' ' :: w) := by
  rw [wrapWords]
  rw [if_neg hcur, if_neg (fun hand => hle hand.1)]

lemma wrapWords_ne_nil (mc : ℤ) (ws : List (List Char)) (cur : List Char)
    (hcur : cur ≠ []) : wrapWords mc ws cur ≠ [] := by
  induction ws generalizing cur with
  | nil => rw [wrapWords_nil, if_neg hcur]; simp
  | cons w rest ih =>
      by_cases hgt : ((cur ++ ' ' :: w).length : ℤ) > mc
      · rw [wrapWords_cons_push mc w rest cur hcur hgt]; simp
      · rw [wrapWords_cons_fit mc w rest cur hcur hgt]
        exact ih (cur ++ ' ' :: w) (by simp)

lemma joinSp_wrapWords (mc : ℤ) (ws : List (List Char)) (cur : List Char)
    (hws : ∀ w ∈ ws, w ≠ []) :
    joinSp (wrapWords mc ws cur) =
      if cur = [] then joinSp ws else joinSp (cur :: ws) := by
  induction ws generalizing cur with
  | nil =>
      by_cases hcur : cur = [] <;> simp [wrapWords_nil, hcur, joinSp]
  | cons w rest ih =>
      have hwne : w ≠ [] := hws w (by simp)
      have hrest : ∀ x ∈ rest, x ≠ [] := fun x hx => hws x (by simp [hx])
      by_cases hcur : cur = []
      · subst hcur
        rw [wrapWords_cons_nilcur, ih w hrest, if_neg hwne]
        simp
      · rw [if_neg hcur]
        by_cases hgt : ((cur ++ ' ' :: w).length : ℤ) > mc
        · rw [wrapWords_cons_push mc w rest cur hcur hgt,
            joinSp_cons cur _ (wrapWords_ne_nil mc rest w hwne),
            ih w hrest, if_neg hwne,
            joinSp_cons cur (w :: rest) (by simp)]
        · rw [wrapWords_cons_fit mc w rest cur hcur hgt,
            ih _ hrest, if_neg (show cur ++ ' ' :: w ≠ [] by simp)]
          cases rest with
          | nil => simp [joinSp]
          | cons a t =>
              rw [joinSp_cons _ (a :: t) (by simp),
                joinSp_cons cur (w :: a :: t) (by simp),
                joinSp_cons w (a :: t) (by simp)]
              simp

lemma len_le_maxChars_width (line : List Char) (maxPx fs : ℚ) (hfs : 0 < fs)
    (h : (line.length : ℤ) ≤ maxCharsOf maxPx fs) : approxW line fs ≤ maxPx := by
  have hc : (0 : ℚ) < fs * (57 / 100) := by positivity
  have h1 : ((line.length : ℤ) : ℚ) ≤ maxPx / (fs * (57 / 100)) :=
    le_trans (by exact_mod_cast h) (Int.floor_le _)
  have h2 : (line.length : ℚ) ≤ maxPx / (fs * (57 / 100)) := by exact_mod_cast h1
  have h3 : (line.length : ℚ) * (fs * (57 / 100)) ≤ maxPx := (le_div_iff hc).1 h2
  unfold approxW
  calc (line.length : ℚ) * fs * (57 / 100)
      = (line.length : ℚ) * (fs * (57 / 100)) := by ring
    _ ≤ maxPx := h3

lemma width_le_maxChars (line : List Char) (maxPx fs : ℚ) (hfs : 0 < fs)
    (h : approxW line fs ≤ maxPx) : (line.length : ℤ) ≤ maxCharsOf maxPx fs := by
  have hc : (0 : ℚ) < fs * (57 / 100) := by positivity
  have h1 : (line.length : ℚ) * (fs * (57 / 100)) ≤ maxPx := by
    have := h
    unfold approxW at this
    calc (line.length : ℚ) * (fs * (57 / 100))
        = (line.length : ℚ) * fs * (57 / 100) := by ring
      _ ≤ maxPx := this
  have h2 : ((line.length : ℤ) : ℚ) ≤ maxPx / (fs * (57 / 100)) := by
    rw [le_div_iff hc]
    exact_mod_cast h1
  exact Int.le_floor.2 h2

lemma wrapWords_line_inv (mc : ℤ) (ws : List (List Char)) (cur : List Char)
    (hws : ∀ w ∈ ws, ' ' ∉ w) (hcur : (cur.length : ℤ) ≤ mc ∨ ' ' ∉ cur) :
    ∀ line ∈ wrapWords mc ws cur, (line.length : ℤ) ≤ mc ∨ ' ' ∉ line := by
  induction ws generalizing cur with
  | nil =>
      intro line hline
      rw [wrapWords_nil] at hline
      by_cases hc : cur = []
      · rw [if_pos hc] at hline; simp at hline
      · rw [if_neg hc] at hline
        simp at hline
        subst hline
        exact hcur
  | cons w rest ih =>
      intro line hline
      have hwsp : ' ' ∉ w := hws w (by simp)
      have hrest : ∀ x ∈ rest, ' ' ∉ x := fun x hx => hws x (by simp [hx])
      by_cases hc : cur = []
      · subst hc
        rw [wrapWords_cons_nilcur] at hline
        exact ih w hrest (Or.inr hwsp) line hline
      · by_cases hgt : ((cur ++ ' ' :: w).length : ℤ) > mc
        · rw [wrapWords_cons_push mc w rest cur hc hgt] at hline
          rcases List.mem_cons.1 hline with h | h
          · subst h; exact hcur
          · exact ih w hrest (Or.inr hwsp) line h
        · rw [wrapWords_cons_fit mc w rest cur hc hgt] at hline
          exact ih (cur ++ ' ' :: w) hrest (Or.inl (by omega)) line hline

/-- C6 counterexample: `wrap` performs no whitespace normalization.  For the
already-fitting input `"a  b"` (double internal space) the returned single
line, rejoined, is the raw input, which differs from the input normalized to
single internal spaces. -/
theorem c6_normalization_counterexample :
    wrap ['a', ' ', ' ', 'b'] 1000 12 = [['a', ' ', ' ', 'b']] ∧
      joinSp (wrap ['a', ' ', ' ', 'b'] 1000 12) ≠ normSp ['a', ' ', ' ', 'b'] := by
  decide

/-- C6 amended: for every input string whose internal whitespace already is
single spaces (it is the space-separated join of nonempty space-free words)
and positive pixel budget and font size, concatenating the lines returned by
`wrap` with a single space re-inserted between consecutive lines reproduces
the input exactly; in particular, input that already fits the budget (per the
approximate width function) returns the one-element sequence holding the
input unchanged.  (`wrap` never normalizes whitespace, so for inputs with
repeated spaces the concatenation reproduces neither the raw nor the
normalized input in general.) -/
theorem c6_wrap_roundtrip (ws : List (List Char)) (maxPx fs : ℚ)
    (hpx : 0 < maxPx) (hfs : 0 < fs)
    (h : ∀ w ∈ ws, w ≠ [] ∧ ' ' ∉ w) :
    joinSp (wrap (joinSp ws) maxPx fs) = joinSp ws ∧
      (approxW (joinSp ws) fs ≤ maxPx → wrap (joinSp ws) maxPx fs = [joinSp ws]) := by
  constructor
  · unfold wrap
    by_cases hshort : ((joinSp ws).length : ℤ) ≤ maxCharsOf maxPx fs
    · rw [if_pos hshort]
      rfl
    · rw [if_neg hshort]
      cases hws : ws with
      | nil =>
          exfalso
          apply hshort
          rw [hws]
          have h0 : (0 : ℤ) ≤ maxCharsOf maxPx fs := by
            unfold maxCharsOf
            apply Int.floor_nonneg.2
            positivity
          simpa [joinSp] using h0
      | cons w rest =>
          rw [← hws]
          rw [splitSp_joinSp ws (fun x hx => (h x hx).2) (by rw [hws]; simp)]
          rw [joinSp_wrapWords _ ws [] (fun x hx => (h x hx).1)]
          simp
  · intro hfit
    unfold wrap
    rw [if_pos (width_le_maxChars (joinSp ws) maxPx fs hfs hfit)]

/-- Witness for the amended C6: wrapping `"go go"` at budget 1000, font 12
rejoins to itself, and the fitting input is returned as a single line. -/
theorem c6_wrap_roundtrip_witness :
    joinSp (wrap (joinSp [['g', 'o'], ['g', 'o']]) 1000 12) =
        joinSp [['g', 'o'], ['g', 'o']] ∧
      (approxW (joinSp [['g', 'o'], ['g', 'o']]) 12 ≤ 1000 →
        wrap (joinSp [['g', 'o'], ['g', 'o']]) 1000 12 =
          [joinSp [['g', 'o'], ['g', 'o']]]) :=
  c6_wrap_roundtrip [['g', 'o'], ['g', 'o']] 1000 12 (by norm_num) (by norm_num)
    (by decide)

/-- C7: `wrap` is total (the embedding is a plain function, mirroring the
exception-free source loop), every returned line whose estimated width
exceeds the budget is a single unsplittable word (contains no space), and
every line containing more than one word (i.e. containing a space) has
estimated width at most the budget. -/
theorem c7_wrap_overflow_only_single_words (str : List Char) (maxPx fs : ℚ)
    (hpx : 0 < maxPx) (hfs : 0 < fs) :
    ∀ line ∈ wrap str maxPx fs,
      (maxPx < approxW line fs → ' ' ∉ line) ∧
      (' ' ∈ line → approxW line fs ≤ maxPx) := by
  have key : ∀ line ∈ wrap str maxPx fs,
      (line.length : ℤ) ≤ maxCharsOf maxPx fs ∨ ' ' ∉ line := by
    intro line hline
    unfold wrap at hline
    by_cases hshort : ((str.length : ℤ) ≤ maxCharsOf maxPx fs)
    · rw [if_pos hshort] at hline
      simp at hline
      subst hline
      exact Or.inl hshort
    · rw [if_neg hshort] at hline
      exact wrapWords_line_inv (maxCharsOf maxPx fs) (splitSp str) []
        (splitSp_no_space str) (Or.inr (by simp)) line hline
  intro line hline
  rcases key line hline with hlen | hnsp
  · have hw := len_le_maxChars_width line maxPx fs hfs hlen
    exact ⟨fun hgt => absurd hw (not_le.2 hgt), fun _ => hw⟩
  · refine ⟨fun _ => hnsp, fun hsp => absurd hsp hnsp⟩

/-- Witness for C7: a 10-character single word at budget 20, font 12 comes
back as one line that overflows the budget and indeed contains no space. -/
theorem c7_wrap_overflow_only_single_words_witness :
    ' ' ∉ List.replicate 10 'a' :=
  (c7_wrap_overflow_only_single_words (List.replicate 10 'a') 20 12 (by norm_num)
      (by norm_num) (List.replicate 10 'a') (by decide)).1 (by
    unfold approxW
    norm_num)

/-- C5: the layout engine is deterministic — it is embedded as a pure function
of the process description and the expansion state (the source reads only
`PROCESS_MAP` and the `expandedSteps` set and uses no randomness or time), so
two calls on identical inputs produce identical element collections,
coordinate for coordinate. -/
theorem c5_layout_deterministic (pm1 pm2 : ProcessMap) (es1 es2 : List (List Char))
    (hpm : pm1 = pm2) (hes : es1 = es2) :
    computeLayout pm1 es1 = computeLayout pm2 es2 := by
  rw [hpm, hes]

/-- Witness for C5 at a concrete two-phase description with one step expanded. -/
theorem c5_layout_deterministic_witness :
    computeLayout pmEx [['g', 'o']] = computeLayout pmEx [['g', 'o']] :=
  c5_layout_deterministic pmEx pmEx [['g', 'o']] [['g', 'o']] rfl rfl

/-- C8 counterexample: task-box height is not monotone in name length.
`stepTwoWords` has a 65-character name wrapping to 2 lines (height 84);
`stepOneWord` has a longer 66-character name that is a single unsplittable
word, wraps to 1 overflowing line, and gets the smaller height 67. -/
theorem c8_monotonicity_counterexample :
    stepTwoWords.name.length < stepOneWord.name.length ∧
      (stepDims stepOneWord).h < (stepDims stepTwoWords).h := by
  constructor
  · decide
  · decide

/-- C8 amended: the computed box height is monotone in the wrapped line count
(increasing text length does not decrease height whenever it does not decrease
the number of wrapped lines), and the height is floored at the configured
minimum `CFG.stepMinH` for every step.  Raw text length alone is not monotone
(a longer single unsplittable word can wrap to fewer lines). -/
theorem c8_height_monotone_floored :
    (∀ s1 s2 : Step, (stepDims s1).lines.length ≤ (stepDims s2).lines.length →
      (stepDims s1).h ≤ (stepDims s2).h) ∧
    (∀ s : Step, CFG.stepMinH ≤ (stepDims s).h) := by
  have hh : ∀ s : Step, (stepDims s).h =
      max (CFG.stepPadTop + ((stepDims s).lines.length : ℚ) * CFG.stepNameLineH +
        CFG.stepNameBadgeGap + CFG.stepBadgeRowH + CFG.stepPadBottom) CFG.stepMinH := by
    intro s
    rfl
  constructor
  · intro s1 s2 hle
    rw [hh s1, hh s2]
    apply max_le_max _ le_rfl
    have hcast : ((stepDims s1).lines.length : ℚ) ≤ ((stepDims s2).lines.length : ℚ) := by
      exact_mod_cast hle
    have hmul : ((stepDims s1).lines.length : ℚ) * CFG.stepNameLineH ≤
        ((stepDims s2).lines.length : ℚ) * CFG.stepNameLineH := by
      apply mul_le_mul_of_nonneg_right hcast
      unfold CFG.stepNameLineH
      norm_num
    linarith
  · intro s
    rw [hh s]
    exact le_max_right _ _

/-- Witness for the amended C8: a 2-word step wraps to fewer lines than the
two-line step, so its height is no larger; and the floor holds concretely. -/
theorem c8_height_monotone_floored_witness :
    (stepDims stepShort).h ≤ (stepDims stepTwoWords).h ∧
      CFG.stepMinH ≤ (stepDims stepShort).h :=
  ⟨c8_height_monotone_floored.1 stepShort stepTwoWords (by decide),
    c8_height_monotone_floored.2 stepShort⟩

/-! ## Lemmas about zone reconciliation -/

lemma applyZone_eq (ly : Layout) (zm : List (List Char) × ℚ) :
    applyZone ly zm =
      if zoneApplies ly zm then
        { elems := ly.elems.map (shiftElem (boundariesOf (sortedMembersOf ly zm.1)
            (zm.2 - spanOf ly zm.1))),
          w := ly.w, h := ly.h + (zm.2 - spanOf ly zm.1), cx := ly.cx }
      else ly := by
  by_cases h1 : zm.2 ≤ 0
  · rw [if_neg (fun hap => absurd hap.1 (not_lt.2 h1))]
    unfold applyZone
    rw [if_pos h1]
  · by_cases h2 : membersOf ly zm.1 = []
    · rw [if_neg (fun hap => absurd h2 hap.2.1)]
      unfold applyZone
      rw [if_neg h1, if_pos h2]
    · by_cases h3 : zm.2 ≤ spanOf ly zm.1
      · rw [if_neg (fun hap => absurd h3 (not_le.2 hap.2.2))]
        unfold applyZone
        rw [if_neg h1, if_neg h2]
        exact if_pos h3
      · have h3e := h3
        rw [if_pos ⟨not_le.1 h1, h2, not_le.1 h3⟩]
        unfold applyZone
        rw [if_neg h1, if_neg h2]
        dsimp only [spanOf, sortedMembersOf] at h3e ⊢
        rw [if_neg h3e]

lemma appliedDeltas_nil (ly : Layout) : appliedDeltas ly [] = [] := rfl

lemma appliedDeltas_cons (ly : Layout) (zm : List (List Char) × ℚ)
    (zs : List (List (List Char) × ℚ)) :
    appliedDeltas ly (zm :: zs) =
      (if zoneApplies ly zm then [zm.2 - spanOf ly zm.1] else []) ++
        appliedDeltas (applyZone ly zm) zs := rfl

lemma adjust_cons (ly : Layout) (zm : List (List Char) × ℚ)
    (zs : List (List (List Char) × ℚ)) :
    adjustLayoutForZoneMinHeights ly (zm :: zs) =
      adjustLayoutForZoneMinHeights (applyZone ly zm) zs := rfl

lemma adjust_nil (ly : Layout) : adjustLayoutForZoneMinHeights ly [] = ly := rfl

lemma applyZone_h (ly : Layout) (zm : List (List Char) × ℚ) :
    (applyZone ly zm).h =
      ly.h + (if zoneApplies ly zm then zm.2 - spanOf ly zm.1 else 0) := by
  rw [applyZone_eq]
  by_cases hap : zoneApplies ly zm
  · rw [if_pos hap, if_pos hap]
  · rw [if_neg hap, if_neg hap, add_zero]

lemma adjust_h_sum (ly : Layout) (zs : List (List (List Char) × ℚ)) :
    (adjustLayoutForZoneMinHeights ly zs).h = ly.h + (appliedDeltas ly zs).sum := by
  induction zs generalizing ly with
  | nil => simp [adjust_nil, appliedDeltas_nil]
  | cons zm rest ih =>
      rw [adjust_cons, ih (applyZone ly zm), appliedDeltas_cons]
      by_cases hap : zoneApplies ly zm
      · rw [if_pos hap, applyZone_h, if_pos hap]
        simp
        ring
      · rw [if_neg hap, applyZone_h, if_neg hap]
        simp

lemma appliedDeltas_pos (ly : Layout) (zs : List (List (List Char) × ℚ)) :
    ∀ d ∈ appliedDeltas ly zs, 0 < d := by
  induction zs generalizing ly with
  | nil => simp [appliedDeltas_nil]
  | cons zm rest ih =>
      intro d hd
      rw [appliedDeltas_cons] at hd
      by_cases hap : zoneApplies ly zm
      · rw [if_pos hap] at hd
        rcases List.mem_append.1 hd with h | h
        · simp at h
          subst h
          have := hap.2.2
          linarith
        · exact ih (applyZone ly zm) d h
      · rw [if_neg hap] at hd
        simp at hd
        exact ih (applyZone ly zm) d hd

/-- C3: a zone whose current span already meets its required minimum is left
untouched; the total layout height after reconciliation equals the height
before plus the sum of the positive deltas of the applied zones (each delta
measured on the layout as already shifted by the preceding zones); the total
height never decreases. -/
theorem c3_reconcile_height_accounting (ly : Layout) (zone : List (List Char))
    (m : ℚ) (zs : List (List (List Char) × ℚ)) :
    (m ≤ spanOf ly zone → applyZone ly (zone, m) = ly) ∧
    (adjustLayoutForZoneMinHeights ly zs).h = ly.h + (appliedDeltas ly zs).sum ∧
    (∀ d ∈ appliedDeltas ly zs, 0 < d) ∧
    ly.h ≤ (adjustLayoutForZoneMinHeights ly zs).h := by
  refine ⟨?_, adjust_h_sum ly zs, appliedDeltas_pos ly zs, ?_⟩
  · intro hle
    rw [applyZone_eq]
    exact if_neg (fun hap => absurd hle (not_le.2 hap.2.2))
  · rw [adjust_h_sum ly zs]
    have : 0 ≤ (appliedDeltas ly zs).sum :=
      List.sum_nonneg (fun d hd => le_of_lt (appliedDeltas_pos ly zs d hd))
    linarith

/-- Witness for C3 on a concrete layout: the zone over the third task already
spans 56 ≥ 10 pixels, so it is a no-op; the height accounting holds for the
two-member zone list. -/
theorem c3_reconcile_height_accounting_witness :
    applyZone lyThreeTasks ([['c']], 10) = lyThreeTasks ∧
      (adjustLayoutForZoneMinHeights lyThreeTasks zsTwoOfThree).h =
        lyThreeTasks.h + (appliedDeltas lyThreeTasks zsTwoOfThree).sum ∧
      lyThreeTasks.h ≤ (adjustLayoutForZoneMinHeights lyThreeTasks zsTwoOfThree).h := by
  have h := c3_reconcile_height_accounting lyThreeTasks [['c']] 10 zsTwoOfThree
  exact ⟨h.1 (by decide), h.2.1, h.2.2.2⟩

lemma shiftOf_aux_ge (t : ℚ) (bs : List (ℚ × ℚ)) :
    ∀ acc : ℚ, acc ≤ bs.foldl (fun acc b => if t > b.1 then max acc b.2 else acc) acc := by
  induction bs with
  | nil => intro acc; exact le_rfl
  | cons b rest ih =>
      intro acc
      refine le_trans ?_ (ih (if t > b.1 then max acc b.2 else acc))
      by_cases hb : t > b.1
      · rw [if_pos hb]; exact le_max_left _ _
      · rw [if_neg hb]

lemma shiftOf_nonneg (bs : List (ℚ × ℚ)) (t : ℚ) : 0 ≤ shiftOf bs t :=
  shiftOf_aux_ge t bs 0

lemma shiftOf_aux_mono (t1 t2 : ℚ) (ht : t1 ≤ t2) (bs : List (ℚ × ℚ)) :
    ∀ acc1 acc2 : ℚ, acc1 ≤ acc2 →
      bs.foldl (fun acc b => if t1 > b.1 then max acc b.2 else acc) acc1 ≤
        bs.foldl (fun acc b => if t2 > b.1 then max acc b.2 else acc) acc2 := by
  induction bs with
  | nil => intro acc1 acc2 h; exact h
  | cons b rest ih =>
      intro acc1 acc2 h
      refine ih _ _ ?_
      dsimp only
      by_cases hb1 : t1 > b.1
      · rw [if_pos hb1, if_pos (lt_of_lt_of_le hb1 ht)]
        exact max_le_max h le_rfl
      · rw [if_neg hb1]
        by_cases hb2 : t2 > b.1
        · rw [if_pos hb2]
          exact le_trans h (le_max_left _ _)
        · rw [if_neg hb2]
          exact h

lemma shiftOf_mono (bs : List (ℚ × ℚ)) (t1 t2 : ℚ) (ht : t1 ≤ t2) :
    shiftOf bs t1 ≤ shiftOf bs t2 :=
  shiftOf_aux_mono t1 t2 ht bs 0 0 le_rfl

lemma shiftOf_all_ge (bs : List (ℚ × ℚ)) (t : ℚ) (h : ∀ b ∈ bs, t ≤ b.1) :
    shiftOf bs t = 0 := by
  unfold shiftOf
  induction bs with
  | nil => rfl
  | cons b rest ih =>
      have hb : ¬t > b.1 := not_lt.2 (h b (by simp))
      simp only [List.foldl_cons, if_neg hb]
      exact ih (fun x hx => h x (by simp [hx]))

lemma shiftOf_aux_le (t M : ℚ) (bs : List (ℚ × ℚ)) (hM : ∀ b ∈ bs, b.2 ≤ M) :
    ∀ acc : ℚ, acc ≤ M →
      bs.foldl (fun acc b => if t > b.1 then max acc b.2 else acc) acc ≤ M := by
  induction bs with
  | nil => intro acc h; exact h
  | cons b rest ih =>
      intro acc h
      refine ih (fun x hx => hM x (by simp [hx])) _ ?_
      dsimp only
      by_cases hb : t > b.1
      · rw [if_pos hb]
        exact max_le h (hM b (by simp))
      · rw [if_neg hb]; exact h

lemma shiftOf_le (bs : List (ℚ × ℚ)) (t M : ℚ) (h0 : 0 ≤ M)
    (hM : ∀ b ∈ bs, b.2 ≤ M) : shiftOf bs t ≤ M :=
  shiftOf_aux_le t M bs hM 0 h0

lemma shiftOf_aux_mem (t : ℚ) (bs : List (ℚ × ℚ)) (b : ℚ × ℚ) (hb : b ∈ bs)
    (ht : b.1 < t) :
    ∀ acc : ℚ, b.2 ≤ bs.foldl (fun acc x => if t > x.1 then max acc x.2 else acc) acc := by
  induction bs with
  | nil => simp at hb
  | cons c rest ih =>
      intro acc
      rcases List.mem_cons.1 hb with h | h
      · subst h
        refine le_trans ?_ (shiftOf_aux_ge t rest _)
        dsimp only
        rw [if_pos ht]
        exact le_max_right _ _
      · exact ih h _

lemma shiftOf_ge (bs : List (ℚ × ℚ)) (t : ℚ) (b : ℚ × ℚ) (hb : b ∈ bs)
    (ht : b.1 < t) : b.2 ≤ shiftOf bs t :=
  shiftOf_aux_mem t bs b hb ht 0

lemma shiftOf_perm (bs bs2 : List (ℚ × ℚ)) (hp : bs.Perm bs2) (t : ℚ) :
    shiftOf bs t = shiftOf bs2 t := by
  haveI : RightCommutative (fun (acc : ℚ) (b : ℚ × ℚ) =>
      if t > b.1 then max acc b.2 else acc) := by
    constructor
    intro b a1 a2
    by_cases h1 : t > a1.1 <;> by_cases h2 : t > a2.1 <;>
      simp [h1, h2, sup_right_comm]
  exact hp.foldl_eq 0

lemma shiftOf_sortByY (bs : List (ℚ × ℚ)) (t : ℚ) :
    shiftOf (sortByY bs) t = shiftOf bs t :=
  shiftOf_perm (sortByY bs) bs (List.perm_insertionSort _ bs) t

lemma topY_shiftElem (bs : List (ℚ × ℚ)) (e : Elem) :
    topY (shiftElem bs e) = topY e + shiftOf bs (topY e) := by
  cases e with
  | band p x y w h =>
      show topY (Elem.band p x (y + shiftOf bs y) w _) = _
      simp [topY]
  | start x y r =>
      show topY (if shiftOf bs (topY (Elem.start x y r)) > 0 then _ else _) = _
      by_cases hs : shiftOf bs (topY (Elem.start x y r)) > 0
      · rw [if_pos hs]; simp [topY]; ring
      · rw [if_neg hs]
        have h0 : shiftOf bs (topY (Elem.start x y r)) = 0 :=
          le_antisymm (not_lt.1 hs) (shiftOf_nonneg _ _)
        rw [h0, add_zero]
  | stop x y r =>
      show topY (if shiftOf bs (topY (Elem.stop x y r)) > 0 then _ else _) = _
      by_cases hs : shiftOf bs (topY (Elem.stop x y r)) > 0
      · rw [if_pos hs]; simp [topY]; ring
      · rw [if_neg hs]
        have h0 : shiftOf bs (topY (Elem.stop x y r)) = 0 :=
          le_antisymm (not_lt.1 hs) (shiftOf_nonneg _ _)
        rw [h0, add_zero]
  | task sid lines x y w h expH =>
      show topY (if shiftOf bs (topY (Elem.task sid lines x y w h expH)) > 0
        then _ else _) = _
      by_cases hs : shiftOf bs (topY (Elem.task sid lines x y w h expH)) > 0
      · rw [if_pos hs]; simp [topY]
      · rw [if_neg hs]
        have h0 : shiftOf bs (topY (Elem.task sid lines x y w h expH)) = 0 :=
          le_antisymm (not_lt.1 hs) (shiftOf_nonneg _ _)
        rw [h0, add_zero]
  | decision sid lbl x y size =>
      show topY (if shiftOf bs (topY (Elem.decision sid lbl x y size)) > 0
        then _ else _) = _
      by_cases hs : shiftOf bs (topY (Elem.decision sid lbl x y size)) > 0
      · rw [if_pos hs]; simp [topY]; ring
      · rw [if_neg hs]
        have h0 : shiftOf bs (topY (Elem.decision sid lbl x y size)) = 0 :=
          le_antisymm (not_lt.1 hs) (shiftOf_nonneg _ _)
        rw [h0, add_zero]

lemma frameMatch_refl (e : Elem) : frameMatch e e := by
  cases e <;> simp [frameMatch]

lemma frameMatch_trans (a b c : Elem) (h1 : frameMatch a b) (h2 : frameMatch b c) :
    frameMatch a c := by
  cases a <;> cases b <;> simp [frameMatch] at h1 <;> cases c <;>
    simp [frameMatch] at h2 ⊢ <;> simp_all

lemma frameMatch_shiftElem (bs : List (ℚ × ℚ)) (e : Elem) :
    frameMatch e (shiftElem bs e) := by
  cases e with
  | band p x y w h => exact ⟨rfl, rfl, rfl⟩
  | start x y r =>
      show frameMatch _ (if shiftOf bs (topY (Elem.start x y r)) > 0 then _ else _)
      by_cases hs : shiftOf bs (topY (Elem.start x y r)) > 0
      · rw [if_pos hs]; exact ⟨rfl, rfl⟩
      · rw [if_neg hs]; exact frameMatch_refl _
  | stop x y r =>
      show frameMatch _ (if shiftOf bs (topY (Elem.stop x y r)) > 0 then _ else _)
      by_cases hs : shiftOf bs (topY (Elem.stop x y r)) > 0
      · rw [if_pos hs]; exact ⟨rfl, rfl⟩
      · rw [if_neg hs]; exact frameMatch_refl _
  | task sid lines x y w h expH =>
      show frameMatch _
        (if shiftOf bs (topY (Elem.task sid lines x y w h expH)) > 0 then _ else _)
      by_cases hs : shiftOf bs (topY (Elem.task sid lines x y w h expH)) > 0
      · rw [if_pos hs]; exact ⟨rfl, rfl, rfl, rfl, rfl, rfl⟩
      · rw [if_neg hs]; exact frameMatch_refl _
  | decision sid lbl x y size =>
      show frameMatch _
        (if shiftOf bs (topY (Elem.decision sid lbl x y size)) > 0 then _ else _)
      by_cases hs : shiftOf bs (topY (Elem.decision sid lbl x y size)) > 0
      · rw [if_pos hs]; exact ⟨rfl, rfl, rfl, rfl⟩
      · rw [if_neg hs]; exact frameMatch_refl _

lemma frameRel_refl (ly : Layout) : frameRel ly ly :=
  ⟨List.forall₂_same.2 (fun e _ => frameMatch_refl e), rfl, rfl,
    fun _ _ _ _ h => h⟩

lemma frameRel_trans (a b c : Layout) (h1 : frameRel a b) (h2 : frameRel b c) :
    frameRel a c := by
  obtain ⟨f1, w1, c1, o1⟩ := h1
  obtain ⟨f2, w2, c2, o2⟩ := h2
  have hlen : b.elems.length = a.elems.length := f1.length_eq.symm
  refine ⟨?_, w2.trans w1, c2.trans c1, ?_⟩
  · rw [List.forall₂_iff_get] at f1 f2 ⊢
    refine ⟨f1.1.trans f2.1, ?_⟩
    intro i h1 h2
    have hb : i < b.elems.length := by omega
    exact frameMatch_trans _ _ _ (f1.2 i h1 hb) (f2.2 i hb h2)
  · intro i j hi hj hlt
    exact o2 i j (by omega) (by omega) (o1 i j hi hj hlt)

lemma applyZone_frameRel (ly : Layout) (zm : List (List Char) × ℚ) :
    frameRel ly (applyZone ly zm) := by
  rw [applyZone_eq]
  by_cases hap : zoneApplies ly zm
  · rw [if_pos hap]
    set bs := boundariesOf (sortedMembersOf ly zm.1) (zm.2 - spanOf ly zm.1) with hbs
    refine ⟨?_, rfl, rfl, ?_⟩
    · exact List.forall₂_map_right_iff.2
        (List.forall₂_same.2 (fun e _ => frameMatch_shiftElem bs e))
    · intro i j hi hj hlt
      have hgi : (List.map (shiftElem bs) ly.elems).getD i default =
          shiftElem bs (ly.elems.getD i default) := by
        simp [List.getD_eq_getElem?_getD, List.getElem?_map,
          List.getElem?_eq_getElem hi]
      have hgj : (List.map (shiftElem bs) ly.elems).getD j default =
          shiftElem bs (ly.elems.getD j default) := by
        simp [List.getD_eq_getElem?_getD, List.getElem?_map,
          List.getElem?_eq_getElem hj]
      show topY ((List.map (shiftElem bs) ly.elems).getD i default) <
        topY ((List.map (shiftElem bs) ly.elems).getD j default)
      rw [hgi, hgj, topY_shiftElem, topY_shiftElem]
      have hm := shiftOf_mono bs _ _ (le_of_lt hlt)
      linarith
  · rw [if_neg hap]
    exact frameRel_refl ly

lemma adjust_frameRel (ly : Layout) (zs : List (List (List Char) × ℚ)) :
    frameRel ly (adjustLayoutForZoneMinHeights ly zs) := by
  induction zs generalizing ly with
  | nil => exact frameRel_refl ly
  | cons zm rest ih =>
      rw [adjust_cons]
      exact frameRel_trans ly (applyZone ly zm) _
        (applyZone_frameRel ly zm) (ih (applyZone ly zm))

/-- C10: zone reconciliation changes only vertical extents.  Every element of
the reconciled layout matches the original element positionally with the same
constructor, x coordinate, width, non-band height, expansion height, step id,
and cached wrapped lines (only `y`, band heights, and the total height can
change); the layout width and center are unchanged; and the strict relative
vertical order of any two elements is preserved. -/
theorem c10_reconcile_frame_and_order (ly : Layout)
    (zs : List (List (List Char) × ℚ)) :
    List.Forall₂ frameMatch ly.elems
        (adjustLayoutForZoneMinHeights ly zs).elems ∧
      (adjustLayoutForZoneMinHeights ly zs).w = ly.w ∧
      (adjustLayoutForZoneMinHeights ly zs).cx = ly.cx ∧
      ∀ i j, i < ly.elems.length → j < ly.elems.length →
        topY (ly.elems.getD i default) < topY (ly.elems.getD j default) →
        topY ((adjustLayoutForZoneMinHeights ly zs).elems.getD i default) <
          topY ((adjustLayoutForZoneMinHeights ly zs).elems.getD j default) :=
  adjust_frameRel ly zs

/-- Witness for C10 on the three-task layout: after reconciling the two-member
zone, the width is unchanged and the first two elements keep their relative
vertical order. -/
theorem c10_reconcile_frame_and_order_witness :
    (adjustLayoutForZoneMinHeights lyThreeTasks zsTwoOfThree).w = lyThreeTasks.w ∧
      topY ((adjustLayoutForZoneMinHeights lyThreeTasks zsTwoOfThree).elems.getD 0
          default) <
        topY ((adjustLayoutForZoneMinHeights lyThreeTasks zsTwoOfThree).elems.getD 1
          default) := by
  have h := c10_reconcile_frame_and_order lyThreeTasks zsTwoOfThree
  exact ⟨h.2.1, h.2.2.2 0 1 (by decide) (by decide) (by decide)⟩

/-! ### Support lemmas for the reconciliation idempotence claim -/

lemma headD_mem {α : Type} [Inhabited α] (l : List α) (h : l ≠ []) :
    l.headD default ∈ l := by
  cases l with
  | nil => exact absurd rfl h
  | cons a t => exact List.mem_cons_self a t

lemma getLastD_mem {α : Type} [Inhabited α] (l : List α) (h : l ≠ []) :
    l.getLastD default ∈ l := by
  induction l with
  | nil => exact absurd rfl h
  | cons a t ih =>
      cases t with
      | nil => simp
      | cons b u =>
          have := ih (by simp)
          simpa [List.getLastD] using Or.inr this

lemma headD_eq_getD {α : Type} [Inhabited α] (l : List α) :
    l.headD default = l.getD 0 default := by
  cases l <;> rfl

lemma getLastD_eq_getD {α : Type} [Inhabited α] (l : List α) (h : l ≠ []) :
    l.getLastD default = l.getD (l.length - 1) default := by
  induction l with
  | nil => exact absurd rfl h
  | cons a t ih =>
      cases t with
      | nil => rfl
      | cons b u =>
          have hne : b :: u ≠ [] := by simp
          have := ih hne
          simpa [List.getLastD] using this

lemma headD_map_ne (f : Elem → Elem) (l : List Elem) (h : l ≠ []) :
    (l.map f).headD default = f (l.headD default) := by
  cases l with
  | nil => exact absurd rfl h
  | cons a t => rfl

lemma getLastD_map_ne (f : Elem → Elem) (l : List Elem) (h : l ≠ []) :
    (l.map f).getLastD default = f (l.getLastD default) := by
  induction l with
  | nil => exact absurd rfl h
  | cons a t ih =>
      cases t with
      | nil => rfl
      | cons b u =>
          have := ih (by simp)
          simpa [List.getLastD] using this

lemma isZoneMember_shiftElem (z : List (List Char)) (bs : List (ℚ × ℚ)) (e : Elem) :
    isZoneMember z (shiftElem bs e) = isZoneMember z e := by
  cases e with
  | band p x y w h => rfl
  | start x y r =>
      show isZoneMember z (if shiftOf bs (topY (Elem.start x y r)) > 0 then _ else _) = _
      by_cases hs : shiftOf bs (topY (Elem.start x y r)) > 0
      · rw [if_pos hs]; rfl
      · rw [if_neg hs]
  | stop x y r =>
      show isZoneMember z (if shiftOf bs (topY (Elem.stop x y r)) > 0 then _ else _) = _
      by_cases hs : shiftOf bs (topY (Elem.stop x y r)) > 0
      · rw [if_pos hs]; rfl
      · rw [if_neg hs]
  | task sid lines x y w h expH =>
      show isZoneMember z
        (if shiftOf bs (topY (Elem.task sid lines x y w h expH)) > 0 then _ else _) = _
      by_cases hs : shiftOf bs (topY (Elem.task sid lines x y w h expH)) > 0
      · rw [if_pos hs]; rfl
      · rw [if_neg hs]
  | decision sid lbl x y size =>
      show isZoneMember z
        (if shiftOf bs (topY (Elem.decision sid lbl x y size)) > 0 then _ else _) = _
      by_cases hs : shiftOf bs (topY (Elem.decision sid lbl x y size)) > 0
      · rw [if_pos hs]; rfl
      · rw [if_neg hs]

lemma filter_member_map (l : List Elem) (bs : List (ℚ × ℚ)) (z : List (List Char)) :
    (l.map (shiftElem bs)).filter (isZoneMember z) =
      (l.filter (isZoneMember z)).map (shiftElem bs) := by
  rw [List.filter_map]
  congr 1
  apply List.filter_congr
  intro e _
  exact isZoneMember_shiftElem z bs e

lemma bottomY_shiftElem_member (z : List (List Char)) (bs : List (ℚ × ℚ)) (e : Elem)
    (he : isZoneMember z e = true) :
    bottomY (shiftElem bs e) = bottomY e + shiftOf bs (topY e) := by
  cases e with
  | band p x y w h => exact absurd he (by simp [isZoneMember])
  | start x y r => exact absurd he (by simp [isZoneMember])
  | stop x y r => exact absurd he (by simp [isZoneMember])
  | task sid lines x y w h expH =>
      show bottomY
        (if shiftOf bs (topY (Elem.task sid lines x y w h expH)) > 0 then _ else _) = _
      by_cases hs : shiftOf bs (topY (Elem.task sid lines x y w h expH)) > 0
      · rw [if_pos hs]; simp [bottomY, topY]; ring
      · rw [if_neg hs]
        have h0 : shiftOf bs (topY (Elem.task sid lines x y w h expH)) = 0 :=
          le_antisymm (not_lt.1 hs) (shiftOf_nonneg _ _)
        rw [h0, add_zero]
  | decision sid lbl x y size =>
      show bottomY
        (if shiftOf bs (topY (Elem.decision sid lbl x y size)) > 0 then _ else _) = _
      by_cases hs : shiftOf bs (topY (Elem.decision sid lbl x y size)) > 0
      · rw [if_pos hs]; simp [bottomY, topY]; ring
      · rw [if_neg hs]
        have h0 : shiftOf bs (topY (Elem.decision sid lbl x y size)) = 0 :=
          le_antisymm (not_lt.1 hs) (shiftOf_nonneg _ _)
        rw [h0, add_zero]

lemma chain_topY_pairwise (l : List Elem)
    (h : l.Chain' (fun a b => topY a ≤ topY b)) :
    l.Pairwise (fun a b => topY a ≤ topY b) := by
  haveI : IsTrans Elem (fun a b => topY a ≤ topY b) :=
    ⟨fun a b c hab hbc => le_trans hab hbc⟩
  exact List.chain'_iff_pairwise.1 h

lemma sortByTop_eq_self (l : List Elem)
    (h : l.Chain' (fun a b => topY a ≤ topY b)) : sortByTop l = l :=
  List.Sorted.insertionSort_eq (chain_topY_pairwise l h)

lemma chain'_conj {α : Type} (R Q : α → α → Prop) :
    ∀ (l : List α), l.Chain' R → l.Chain' Q → l.Chain' (fun a b => R a b ∧ Q a b)
  | [], _, _ => List.chain'_nil
  | [_], _, _ => List.chain'_singleton _
  | a :: b :: t, hr, hq => by
      rw [List.chain'_cons] at hr hq ⊢
      exact ⟨⟨hr.1, hq.1⟩, chain'_conj R Q (b :: t) hr.2 hq.2⟩

lemma chain_leTop_map_shift (S : List Elem) (bs : List (ℚ × ℚ))
    (h : S.Chain' (fun a b => topY a ≤ topY b)) :
    (S.map (shiftElem bs)).Chain' (fun a b => topY a ≤ topY b) := by
  rw [List.chain'_map]
  refine h.imp ?_
  intro a b hab
  rw [topY_shiftElem, topY_shiftElem]
  have := shiftOf_mono bs _ _ hab
  linarith

lemma spanOf_eq_of_chain (ly : Layout) (z : List (List Char))
    (hchain : (membersOf ly z).Chain' (fun a b => topY a ≤ topY b)) :
    spanOf ly z = bottomY ((membersOf ly z).getLastD default) -
      topY ((membersOf ly z).headD default) := by
  unfold spanOf sortedMembersOf
  rw [sortByTop_eq_self _ hchain]

lemma topY_headD_le_getD (S : List Elem)
    (hchain : S.Chain' (fun a b => topY a ≤ topY b)) (i : ℕ) (hi : i < S.length) :
    topY (S.headD default) ≤ topY (S.getD i default) := by
  have hp := chain_topY_pairwise S hchain
  rw [List.pairwise_iff_getElem] at hp
  have hne : S ≠ [] := by
    intro h
    rw [h] at hi
    simp at hi
  rw [headD_eq_getD]
  have h0 : 0 < S.length := by omega
  rw [List.getD_eq_getElem?_getD, List.getElem?_eq_getElem h0,
    List.getD_eq_getElem?_getD, List.getElem?_eq_getElem hi]
  rcases Nat.eq_or_lt_of_le (Nat.zero_le i) with h | h
  · subst h
    simp
  · exact hp 0 i h0 hi h

lemma topY_headD_le_getLastD (S : List Elem)
    (hchain : S.Chain' (fun a b => topY a ≤ topY b)) (hne : S ≠ []) :
    topY (S.headD default) ≤ topY (S.getLastD default) := by
  have hlen : 0 < S.length := List.length_pos.2 hne
  rw [getLastD_eq_getD S hne]
  exact topY_headD_le_getD S hchain (S.length - 1) (by omega)

lemma getD_mem {α : Type} [Inhabited α] (l : List α) (i : ℕ) (hi : i < l.length) :
    l.getD i default ∈ l := by
  rw [List.getD_eq_getElem?_getD, List.getElem?_eq_getElem hi]
  exact List.getElem_mem hi

lemma membersOf_mk (el : List Elem) (w h cx : ℚ) (z : List (List Char)) :
    membersOf { elems := el, w := w, h := h, cx := cx } z =
      el.filter (isZoneMember z) := rfl

lemma not_applies_iff_sat (ly : Layout) (zm : List (List Char) × ℚ) :
    ¬zoneApplies ly zm ↔ zoneSat ly zm := by
  unfold zoneApplies zoneSat
  constructor
  · intro h
    by_cases h1 : zm.2 ≤ 0
    · exact Or.inl h1
    · by_cases h2 : membersOf ly zm.1 = []
      · exact Or.inr (Or.inl h2)
      · refine Or.inr (Or.inr ?_)
        by_contra h3
        exact h ⟨not_le.1 h1, h2, not_le.1 h3⟩
  · intro h hap
    rcases h with h | h | h
    · exact absurd hap.1 (not_lt.2 h)
    · exact hap.2.1 h
    · exact absurd hap.2.2 (not_lt.2 h)

lemma spanOf_map_shift (ly : Layout) (z : List (List Char)) (bs : List (ℚ × ℚ))
    (w2 h2 cx2 : ℚ)
    (hchain : (membersOf ly z).Chain' (fun a b => topY a ≤ topY b))
    (hne : membersOf ly z ≠ []) :
    spanOf { elems := ly.elems.map (shiftElem bs), w := w2, h := h2, cx := cx2 } z =
      spanOf ly z + shiftOf bs (topY ((membersOf ly z).getLastD default)) -
        shiftOf bs (topY ((membersOf ly z).headD default)) := by
  have hm2 : membersOf { elems := ly.elems.map (shiftElem bs), w := w2, h := h2, cx := cx2 } z = (membersOf ly z).map (shiftElem bs) := by
    rw [membersOf_mk, filter_member_map]
    rfl
  have hchain2 : (membersOf { elems := ly.elems.map (shiftElem bs), w := w2, h := h2, cx := cx2 } z).Chain' (fun a b => topY a ≤ topY b) := by
    rw [hm2]
    exact chain_leTop_map_shift _ bs hchain
  rw [spanOf_eq_of_chain _ _ hchain2, spanOf_eq_of_chain _ _ hchain, hm2,
    getLastD_map_ne _ _ hne, headD_map_ne _ _ hne]
  have hlastm : (membersOf ly z).getLastD default ∈ membersOf ly z :=
    getLastD_mem _ hne
  have hlastz : isZoneMember z ((membersOf ly z).getLastD default) = true :=
    List.of_mem_filter hlastm
  rw [bottomY_shiftElem_member z bs _ hlastz, topY_shiftElem]
  ring

lemma spanOf_map_shift_ge (ly : Layout) (z : List (List Char)) (bs : List (ℚ × ℚ))
    (w2 h2 cx2 : ℚ)
    (hchain : (membersOf ly z).Chain' (fun a b => topY a ≤ topY b))
    (hne : membersOf ly z ≠ []) :
    spanOf ly z ≤
      spanOf { elems := ly.elems.map (shiftElem bs), w := w2, h := h2, cx := cx2 } z := by
  rw [spanOf_map_shift ly z bs w2 h2 cx2 hchain hne]
  have hmono := shiftOf_mono bs _ _ (topY_headD_le_getLastD _ hchain hne)
  linarith

lemma zoneSat_map_shift (ly : Layout) (zm : List (List Char) × ℚ)
    (bs : List (ℚ × ℚ)) (w2 h2 cx2 : ℚ)
    (hchain : (membersOf ly zm.1).Chain' (fun a b => topY a ≤ topY b))
    (hs : zoneSat ly zm) :
    zoneSat { elems := ly.elems.map (shiftElem bs), w := w2, h := h2, cx := cx2 } zm := by
  by_cases hne : membersOf ly zm.1 = []
  · refine Or.inr (Or.inl ?_)
    rw [membersOf_mk, filter_member_map]
    show (membersOf ly zm.1).map (shiftElem bs) = []
    rw [hne]
    rfl
  · rcases hs with h | h | h
    · exact Or.inl h
    · exact absurd h hne
    · exact Or.inr (Or.inr
        (le_trans h (spanOf_map_shift_ge ly zm.1 bs w2 h2 cx2 hchain hne)))

lemma wfElem_shiftElem (bs : List (ℚ × ℚ)) (e : Elem) (h : topY e ≤ bottomY e) :
    topY (shiftElem bs e) ≤ bottomY (shiftElem bs e) := by
  cases e with
  | band p x y w hh =>
      show topY (Elem.band p x (y + shiftOf bs y) w _) ≤
        bottomY (Elem.band p x (y + shiftOf bs y) w _)
      simp [topY, bottomY]
  | start x y r =>
      show topY (if shiftOf bs (topY (Elem.start x y r)) > 0 then _ else _) ≤
        bottomY (if shiftOf bs (topY (Elem.start x y r)) > 0 then _ else _)
      by_cases hs : shiftOf bs (topY (Elem.start x y r)) > 0
      · rw [if_pos hs]
        simp only [topY, bottomY] at h ⊢
        linarith
      · rw [if_neg hs]; exact h
  | stop x y r =>
      show topY (if shiftOf bs (topY (Elem.stop x y r)) > 0 then _ else _) ≤
        bottomY (if shiftOf bs (topY (Elem.stop x y r)) > 0 then _ else _)
      by_cases hs : shiftOf bs (topY (Elem.stop x y r)) > 0
      · rw [if_pos hs]
        simp only [topY, bottomY] at h ⊢
        linarith
      · rw [if_neg hs]; exact h
  | task sid lines x y w hh expH =>
      show topY (if shiftOf bs (topY (Elem.task sid lines x y w hh expH)) > 0
          then _ else _) ≤
        bottomY (if shiftOf bs (topY (Elem.task sid lines x y w hh expH)) > 0
          then _ else _)
      by_cases hs : shiftOf bs (topY (Elem.task sid lines x y w hh expH)) > 0
      · rw [if_pos hs]
        simp only [topY, bottomY] at h ⊢
        linarith
      · rw [if_neg hs]; exact h
  | decision sid lbl x y size =>
      show topY (if shiftOf bs (topY (Elem.decision sid lbl x y size)) > 0
          then _ else _) ≤
        bottomY (if shiftOf bs (topY (Elem.decision sid lbl x y size)) > 0
          then _ else _)
      by_cases hs : shiftOf bs (topY (Elem.decision sid lbl x y size)) > 0
      · rw [if_pos hs]
        simp only [topY, bottomY] at h ⊢
        linarith
      · rw [if_neg hs]; exact h

lemma wfLayout_map_shift (ly : Layout) (bs : List (ℚ × ℚ)) (w2 h2 cx2 : ℚ)
    (hwf : wfLayout ly) :
    wfLayout { elems := ly.elems.map (shiftElem bs), w := w2, h := h2, cx := cx2 } := by
  intro e he
  simp only [List.mem_map] at he
  obtain ⟨e0, he0, rfl⟩ := he
  exact wfElem_shiftElem bs e0 (hwf e0 he0)

lemma chain'_imp_mem {α : Type} {R Q : α → α → Prop} :
    ∀ (l : List α), (∀ a ∈ l, ∀ b ∈ l, R a b → Q a b) → l.Chain' R → l.Chain' Q
  | [], _, _ => List.chain'_nil
  | [_], _, _ => List.chain'_singleton _
  | a :: b :: t, himp, hc => by
      rw [List.chain'_cons] at hc ⊢
      refine ⟨himp a (by simp) b (by simp) hc.1, ?_⟩
      exact chain'_imp_mem (b :: t)
        (fun x hx y hy => himp x (by simp [hx]) y (by simp [hy])) hc.2

lemma chain_sep_map_shift (S : List Elem) (bs : List (ℚ × ℚ)) (z : List (List Char))
    (hle : S.Chain' (fun a b => topY a ≤ topY b))
    (hsep : S.Chain' (fun a b => bottomY a < topY b))
    (hmem : ∀ e ∈ S, isZoneMember z e = true) :
    (S.map (shiftElem bs)).Chain' (fun a b => bottomY a < topY b) := by
  rw [List.chain'_map]
  have hconj := chain'_conj _ _ S hle hsep
  refine chain'_imp_mem S ?_ hconj
  intro a ha b _ hab
  rw [bottomY_shiftElem_member z bs a (hmem a ha), topY_shiftElem]
  have hmono := shiftOf_mono bs _ _ hab.1
  have := hab.2
  linarith

lemma zoneGood_map_shift (ly : Layout) (zm2 : List (List Char) × ℚ)
    (bs : List (ℚ × ℚ)) (w2 h2 cx2 : ℚ) (hg : zoneGood ly zm2) :
    zoneGood { elems := ly.elems.map (shiftElem bs), w := w2, h := h2, cx := cx2 } zm2 := by
  obtain ⟨hle, hsep, hbig⟩ := hg
  have hm2 : membersOf { elems := ly.elems.map (shiftElem bs), w := w2, h := h2, cx := cx2 } zm2.1 = (membersOf ly zm2.1).map (shiftElem bs) := by
    rw [membersOf_mk, filter_member_map]
    rfl
  refine ⟨?_, ?_, ?_⟩
  · rw [hm2]
    exact chain_leTop_map_shift _ bs hle
  · rw [hm2]
    exact chain_sep_map_shift _ bs zm2.1 hle hsep
      (fun e he => List.of_mem_filter he)
  · rcases hbig with h | h
    · exact Or.inl (zoneSat_map_shift ly zm2 bs w2 h2 cx2 hle h)
    · refine Or.inr ?_
      rw [hm2, List.length_map]
      exact h

lemma getD_eq_get_of_lt {α : Type} [Inhabited α] (l : List α) (i : ℕ)
    (hi : i < l.length) : l.getD i default = l.get ⟨i, hi⟩ := by
  simp [List.getD_eq_getElem?_getD, List.getElem?_eq_getElem hi]

lemma sortedMembersOf_eq (ly : Layout) (z : List (List Char))
    (hle : (membersOf ly z).Chain' (fun a b => topY a ≤ topY b)) :
    sortedMembersOf ly z = membersOf ly z := by
  unfold sortedMembersOf
  exact sortByTop_eq_self _ hle

lemma applyZone_sat (ly : Layout) (zm : List (List Char) × ℚ) (hwf : wfLayout ly)
    (hg : zoneGood ly zm) : zoneSat (applyZone ly zm) zm := by
  by_cases hap : zoneApplies ly zm
  · obtain ⟨hle, hsep, hbig⟩ := hg
    have hnotsat : ¬zoneSat ly zm := fun hs => (not_applies_iff_sat ly zm).2 hs hap
    have hn2 : 2 ≤ (membersOf ly zm.1).length := hbig.resolve_left hnotsat
    have hne : membersOf ly zm.1 ≠ [] := by
      intro h
      rw [h] at hn2
      simp at hn2
    have hdpos : 0 < zm.2 - spanOf ly zm.1 := sub_pos.2 hap.2.2
    rw [applyZone_eq, if_pos hap, sortedMembersOf_eq ly zm.1 hle]
    set S := membersOf ly zm.1 with hS
    set d := zm.2 - spanOf ly zm.1 with hd
    set n := S.length with hn
    have hwfS : ∀ e ∈ S, topY e ≤ bottomY e := fun e he =>
      hwf e (List.mem_of_mem_filter he)
    have hncast : (2 : ℚ) ≤ (n : ℚ) := by exact_mod_cast hn2
    have hne1 : (n : ℚ) - 1 ≠ 0 := by linarith
    have hgpos : 0 ≤ d / ((n : ℚ) - 1) := by
      apply div_nonneg (le_of_lt hdpos)
      linarith
    set bs0 := (List.range (n - 1)).map (fun i =>
        (bottomY (S.getD i default), ((i : ℚ) + 1) * (d / ((n : ℚ) - 1)))) ++
      [(bottomY (S.getLastD default), d)] with hbs0
    have hbof : boundariesOf S d = sortByY bs0 := rfl
    have hF1 : ∀ b ∈ bs0, topY (S.headD default) ≤ b.1 := by
      intro b hb
      rcases List.mem_append.1 hb with hmap | hlast
      · obtain ⟨i, hi, rfl⟩ := List.mem_map.1 hmap
        have hirange : i < n - 1 := List.mem_range.1 hi
        have hiS : i < S.length := by omega
        have h1 : topY (S.getD i default) ≤ bottomY (S.getD i default) :=
          hwfS _ (getD_mem S i hiS)
        have h2 := topY_headD_le_getD S hle i hiS
        exact le_trans h2 h1
      · have hb1 : b = (bottomY (S.getLastD default), d) := by simpa using hlast
        subst hb1
        have h1 := topY_headD_le_getLastD S hle hne
        have h2 : topY (S.getLastD default) ≤ bottomY (S.getLastD default) :=
          hwfS _ (getLastD_mem S hne)
        exact le_trans h1 h2
    have hF2 : ∀ b ∈ bs0, b.2 ≤ d := by
      intro b hb
      rcases List.mem_append.1 hb with hmap | hlast
      · obtain ⟨i, hi, rfl⟩ := List.mem_map.1 hmap
        have hirange : i < n - 1 := List.mem_range.1 hi
        show ((i : ℚ) + 1) * (d / ((n : ℚ) - 1)) ≤ d
        have hle1 : ((i : ℚ) + 1) ≤ (n : ℚ) - 1 := by
          have hi1 : (i + 1 : ℕ) ≤ n - 1 := by omega
          have h2 : ((i + 1 : ℕ) : ℚ) ≤ ((n - 1 : ℕ) : ℚ) := by exact_mod_cast hi1
          rwa [Nat.cast_add, Nat.cast_one, Nat.cast_sub (by omega : 1 ≤ n),
            Nat.cast_one] at h2
        have hmn : ((n : ℚ) - 1) * (d / ((n : ℚ) - 1)) = d := by
          field_simp
        calc ((i : ℚ) + 1) * (d / ((n : ℚ) - 1)) ≤
              ((n : ℚ) - 1) * (d / ((n : ℚ) - 1)) :=
              mul_le_mul_of_nonneg_right hle1 hgpos
          _ = d := hmn
      · have hb1 : b = (bottomY (S.getLastD default), d) := by simpa using hlast
        subst hb1
        exact le_rfl
    have hfirst : shiftOf bs0 (topY (S.headD default)) = 0 :=
      shiftOf_all_ge bs0 _ hF1
    have hwitmem : (bottomY (S.getD (n - 2) default),
        (((n - 2 : ℕ) : ℚ) + 1) * (d / ((n : ℚ) - 1))) ∈ bs0 := by
      rw [hbs0]
      refine List.mem_append_left _ ?_
      exact List.mem_map.2 ⟨n - 2, List.mem_range.2 (by omega), rfl⟩
    have hwit2 : (((n - 2 : ℕ) : ℚ) + 1) * (d / ((n : ℚ) - 1)) = d := by
      have hc : ((n - 2 : ℕ) : ℚ) = (n : ℚ) - 2 := by
        rw [Nat.cast_sub (by omega : 2 ≤ n)]
        norm_num
      rw [hc]
      have : (n : ℚ) - 2 + 1 = (n : ℚ) - 1 := by ring
      rw [this]
      field_simp
    have hwitlt : bottomY (S.getD (n - 2) default) < topY (S.getLastD default) := by
      have hsep2 := List.chain'_iff_get.1 hsep (n - 2) (by omega)
      have hglast : S.getLastD default = S.getD (n - 1) default := getLastD_eq_getD S hne
      have hgd1 : S.getD (n - 2) default = S.get ⟨n - 2, by omega⟩ :=
        getD_eq_get_of_lt S (n - 2) (by omega)
      have hgd2 : S.getD (n - 1) default = S.get ⟨n - 1, by omega⟩ :=
        getD_eq_get_of_lt S (n - 1) (by omega)
      have hfin : (⟨n - 2 + 1, by omega⟩ : Fin S.length) = ⟨n - 1, by omega⟩ := by
        apply Fin.ext
        simp
        omega
      rw [hglast, hgd1, hgd2, ← hfin]
      exact hsep2
    have hlast : shiftOf bs0 (topY (S.getLastD default)) = d := by
      refine le_antisymm (shiftOf_le bs0 _ d (le_of_lt hdpos) hF2) ?_
      have := shiftOf_ge bs0 (topY (S.getLastD default)) _ hwitmem hwitlt
      rwa [hwit2] at this
    refine Or.inr (Or.inr ?_)
    rw [spanOf_map_shift ly zm.1 (boundariesOf S d) ly.w (ly.h + d) ly.cx hle hne]
    rw [← hS]
    rw [hbof, shiftOf_sortByY, shiftOf_sortByY, hfirst, hlast]
    rw [hd]
    linarith
  · rw [applyZone_eq, if_neg hap]
    exact (not_applies_iff_sat ly zm).1 hap

lemma applyZone_preserves_wf (ly : Layout) (zm : List (List Char) × ℚ)
    (hwf : wfLayout ly) : wfLayout (applyZone ly zm) := by
  rw [applyZone_eq]
  by_cases hap : zoneApplies ly zm
  · rw [if_pos hap]
    exact wfLayout_map_shift ly _ _ _ _ hwf
  · rw [if_neg hap]
    exact hwf

lemma applyZone_preserves_good (ly : Layout) (zm zm2 : List (List Char) × ℚ)
    (hg2 : zoneGood ly zm2) : zoneGood (applyZone ly zm) zm2 := by
  rw [applyZone_eq]
  by_cases hap : zoneApplies ly zm
  · rw [if_pos hap]
    exact zoneGood_map_shift ly zm2 _ _ _ _ hg2
  · rw [if_neg hap]
    exact hg2

lemma applyZone_preserves_sat (ly : Layout) (zm zm2 : List (List Char) × ℚ)
    (hchain : (membersOf ly zm2.1).Chain' (fun a b => topY a ≤ topY b))
    (hs : zoneSat ly zm2) : zoneSat (applyZone ly zm) zm2 := by
  rw [applyZone_eq]
  by_cases hap : zoneApplies ly zm
  · rw [if_pos hap]
    exact zoneSat_map_shift ly zm2 _ _ _ _ hchain hs
  · rw [if_neg hap]
    exact hs

lemma adjust_preserves_sat (ly : Layout) (zs : List (List (List Char) × ℚ))
    (zm2 : List (List Char) × ℚ) (hg : zoneGood ly zm2) (hs : zoneSat ly zm2) :
    zoneSat (adjustLayoutForZoneMinHeights ly zs) zm2 := by
  induction zs generalizing ly with
  | nil => exact hs
  | cons zm rest ih =>
      rw [adjust_cons]
      exact ih (applyZone ly zm) (applyZone_preserves_good ly zm zm2 hg)
        (applyZone_preserves_sat ly zm zm2 hg.1 hs)

lemma adjust_sat_all (ly : Layout) (zs : List (List (List Char) × ℚ))
    (hwf : wfLayout ly) (hgood : ∀ zm ∈ zs, zoneGood ly zm) :
    ∀ zm ∈ zs, zoneSat (adjustLayoutForZoneMinHeights ly zs) zm := by
  induction zs generalizing ly with
  | nil => intro zm h; simp at h
  | cons zm0 rest ih =>
      intro zm hmem
      rw [adjust_cons]
      have hwf1 : wfLayout (applyZone ly zm0) := applyZone_preserves_wf ly zm0 hwf
      rcases List.mem_cons.1 hmem with h | h
      · subst h
        have hg1 : zoneGood (applyZone ly zm) zm :=
          applyZone_preserves_good ly zm zm (hgood zm (by simp))
        exact adjust_preserves_sat (applyZone ly zm) rest zm hg1
          (applyZone_sat ly zm hwf (hgood zm (by simp)))
      · exact ih (applyZone ly zm0) hwf1
          (fun x hx => applyZone_preserves_good ly zm0 x (hgood x (by simp [hx])))
          zm h

lemma adjust_of_all_sat (ly : Layout) (zs : List (List (List Char) × ℚ))
    (hsat : ∀ zm ∈ zs, zoneSat ly zm) :
    adjustLayoutForZoneMinHeights ly zs = ly := by
  induction zs with
  | nil => rfl
  | cons zm rest ih =>
      rw [adjust_cons]
      have h1 : applyZone ly zm = ly := by
        rw [applyZone_eq,
          if_neg ((not_applies_iff_sat ly zm).2 (hsat zm (by simp)))]
      rw [h1]
      exact ih (fun x hx => hsat x (by simp [hx]))

/-- C1 counterexample: reconciliation is not idempotent.  For a layout with a
single task (height 56) in a one-member zone requiring 100 pixels, the first
pass adds the 44-pixel delta to the total height but cannot grow the
single-element zone's span, so the second pass applies the same delta again
(total height 144 after one pass, 188 after two). -/
theorem c1_idempotence_counterexample :
    adjustLayoutForZoneMinHeights
        (adjustLayoutForZoneMinHeights lyOneTask zsOneTask) zsOneTask ≠
      adjustLayoutForZoneMinHeights lyOneTask zsOneTask := by
  decide

/-- C1 amended: the reconciliation pass is idempotent on well-formed layouts
(each element's top at or above its bottom) in which every zone's member
elements appear ordered by top edge and strictly separated, and every zone
either already satisfies its minimum or has at least two member elements —
all true of engine-produced layouts with multi-step zones.  Under these
hypotheses the second pass finds every zone already satisfying its required
minimum span and changes nothing.  (A zone with a single member element
breaks the property: its span can never grow, so every pass re-applies the
full delta.) -/
theorem c1_reconcile_idempotent (ly : Layout) (zs : List (List (List Char) × ℚ))
    (hwf : wfLayout ly) (hgood : ∀ zm ∈ zs, zoneGood ly zm) :
    adjustLayoutForZoneMinHeights (adjustLayoutForZoneMinHeights ly zs) zs =
      adjustLayoutForZoneMinHeights ly zs :=
  adjust_of_all_sat _ zs (adjust_sat_all ly zs hwf hgood)

/-- Witness for the amended C1: the three-task layout with a two-member zone
requiring 200 pixels satisfies the hypotheses, so reconciling twice equals
reconciling once. -/
theorem c1_reconcile_idempotent_witness :
    adjustLayoutForZoneMinHeights
        (adjustLayoutForZoneMinHeights lyThreeTasks zsTwoOfThree) zsTwoOfThree =
      adjustLayoutForZoneMinHeights lyThreeTasks zsTwoOfThree :=
  c1_reconcile_idempotent lyThreeTasks zsTwoOfThree
    (by
      show ∀ e ∈ lyThreeTasks.elems, topY e ≤ bottomY e
      decide)
    (by
      intro zm hmem
      have hzm : zm = ([['a'], ['b']], (200 : ℚ)) := by
        simpa [zsTwoOfThree] using hmem
      subst hzm
      have hmemlist : membersOf lyThreeTasks ([['a'], ['b']], (200 : ℚ)).1 =
          [Elem.task ['a'] [] 0 0 480 56 0, Elem.task ['b'] [] 0 70 480 56 0] := by
        decide
      refine ⟨?_, ?_, Or.inr ?_⟩
      · rw [hmemlist]
        exact List.chain'_cons.2 ⟨by decide, List.chain'_singleton _⟩
      · rw [hmemlist]
        exact List.chain'_cons.2 ⟨by decide, List.chain'_singleton _⟩
      · rw [hmemlist]
        decide)

end EstTask
